import Mathlib

/-!
# Verification of the YouTube-transcript pipeline
(`knowledge-manager/scripts/get_youtube_transcript.py`)

A shallow embedding of the chunking, retry, chunked-correction,
paragraph-summarization and artifact-cache orchestration logic of the
script, together with theorems settling the specification claims.

Modelling conventions:
* Python `str` values are modelled as `List Char`.
* Python floats (retry delays) are modelled as `Rat`; no claim exercises
  floating-point rounding.
* The external text-generation service is an oracle function; a raised
  exception is an `Except.error` result carrying the stringified message.
* Python whitespace is modelled as the six ASCII whitespace characters
  recognised by `str.strip()` / `\s`.
-/

namespace YT

/-- ASCII whitespace, as stripped by Python `str.strip()`. -/
def isSpaceC (c : Char) : Bool :=
  c = ' ' || c = '\t' || c = '\n' || c = '\r' || c = '\x0b' || c = '\x0c'

/-- Python `str.strip()`: drop whitespace from both ends. -/
def stripWS (l : List Char) : List Char :=
  ((l.dropWhile isSpaceC).reverse.dropWhile isSpaceC).reverse

/-- One-pass state machine implementing `re.split(r"\n{2,}", text)`:
`acc` is the current segment (reversed), `p` counts pending trailing
newlines not yet committed to either the segment or a separator. -/
def srGo : List Char → List Char → Nat → List (List Char)
  | [], acc, p =>
    if 2 ≤ p then [acc.reverse, []] else [acc.reverse ++ List.replicate p '\n']
  | c :: rest, acc, p =>
    if c = '\n' then srGo rest acc (p + 1)
    else if 2 ≤ p then acc.reverse :: srGo rest [c] 0
    else srGo rest (c :: (List.replicate p '\n' ++ acc)) 0

/-- `re.split(r"\n{2,}", text)`: split on maximal runs of ≥ 2 newlines. -/
def splitRuns (text : List Char) : List (List Char) :=
  srGo text [] 0

/-- `[p.strip() for p in re.split(r"\n{2,}", text) if p.strip()]`
(line 69 of the script): the stripped, non-empty paragraphs of a text. -/
def paragraphs (text : List Char) : List (List Char) :=
  (splitRuns text).map stripWS |>.filter (fun p => !p.isEmpty)

/-- Python `sep.join(parts)`. -/
def joinSep (sep : List Char) : List (List Char) → List Char
  | [] => []
  | [x] => x
  | x :: y :: xs => x ++ sep ++ joinSep sep (y :: xs)

/-- The paragraph-join separator `"\n\n"`. -/
def nl2 : List Char := ['\n', '\n']

/-- Fuel-driven body of `sliceEvery`; fuel `len l` suffices when `1 ≤ n`. -/
def sliceGo (n : Nat) : Nat → List α → List (List α)
  | 0, _ => []
  | _, [] => []
  | fuel + 1, l => l.take n :: sliceGo n fuel (l.drop n)

/-- `for i in range(0, len(c), n): slices.append(c[i:i+n])` — the hard-slice
fallback (lines 92–93) and the paragraph batching loop (line 252).
Python raises `ValueError` for step `n = 0`; every claim assumes `n ≥ 1`,
so the `n = 0` case (which this model maps to junk output) is unreachable. -/
def sliceEvery (n : Nat) (l : List α) : List (List α) :=
  sliceGo n l.length l

/-- The greedy paragraph-packing loop of `split_text_into_chunks`
(lines 70–83): `current` is the open chunk, `currentLen` its running
length estimate (`current_len` in the source). -/
def packGo (maxChars : Nat) : List (List Char) → List (List Char) → Nat → List (List Char)
  | [], current, _ =>
    if current.isEmpty then [] else [joinSep nl2 current]
  | para :: rest, current, currentLen =>
    let addLen := para.length + 2
    if !current.isEmpty && decide (maxChars < currentLen + addLen) then
      joinSep nl2 current :: packGo maxChars rest [para] para.length
    else
      packGo maxChars rest (current ++ [para]) (currentLen + addLen)

/-- `split_text_into_chunks(text, max_chars)` (lines 61–94). -/
def split_text_into_chunks (text : List Char) (maxChars : Nat) : List (List Char) :=
  if text.length ≤ maxChars then [text]
  else
    let chunks := packGo maxChars (paragraphs text) [] 0
    chunks.foldr (fun c acc =>
      (if c.length ≤ maxChars then [c] else sliceEvery maxChars c) ++ acc) []

/-- Non-whitespace content of a text. -/
def nwf (l : List Char) : List Char := l.filter (fun c => !isSpaceC c)

/-- Non-whitespace content of a list of texts, concatenated. -/
def nwfs (ls : List (List Char)) : List Char := (ls.map nwf).foldr (· ++ ·) []

/-! ## Retry helpers (`_parse_retry_delay_seconds`, `invoke_with_retry`) -/

/-- Strip `pat` (matched case-insensitively) from the front of `s`,
returning the remainder; `none` if it does not match.  Models the literal
part of the `re.IGNORECASE` pattern of `_parse_retry_delay_seconds`. -/
def stripCI : List Char → List Char → Option (List Char)
  | [], s => some s
  | _ :: _, [] => none
  | p :: ps, c :: cs => if p.toLower = c.toLower then stripCI ps cs else none

/-- Numeric value of a decimal digit string. -/
def digitsVal (ds : List Char) : Nat :=
  ds.foldl (fun a c => a * 10 + (c.toNat - '0'.toNat)) 0

/-- `float()` of a match of `[0-9]+(?:\.[0-9]+)?` with integer digits `ds`
and fractional digits `fs`, as a rational. -/
def numVal (ds fs : List Char) : Rat :=
  (digitsVal ds : Rat) + (digitsVal fs : Rat) / ((10 : Rat) ^ fs.length)

/-- Does the list start with `s` or `S`? (the case-insensitive trailing `s`
of the pattern). -/
def headIsS : List Char → Bool
  | c :: _ => c = 's' || c = 'S'
  | [] => false

/-- Match `([0-9]+(?:\.[0-9]+)?)s` at the start of `l`, returning the integer
and fractional digit groups of the match.  The regex engine never needs to
backtrack inside the digit runs: a maximal digit run is followed by a
non-digit, and any shorter run would be followed by a digit, never by `s`. -/
def matchNumS (l : List Char) : Option (List Char × List Char) :=
  let ds := l.takeWhile Char.isDigit
  if ds.isEmpty then none
  else
    match l.drop ds.length with
    | '.' :: r2 =>
      let fs := r2.takeWhile Char.isDigit
      if !fs.isEmpty && headIsS (r2.drop fs.length) then some (ds, fs)
      else none
    | r1 => if headIsS r1 then some (ds, []) else none

/-- Leftmost-position search for `retry in ([0-9]+(?:\.[0-9]+)?)s`
(case-insensitive), as `re.search` performs it. -/
def searchRetry : List Char → Option (List Char × List Char)
  | [] => none
  | l@(_ :: rest) =>
    match (stripCI "retry in ".toList l).bind matchNumS with
    | some v => some v
    | none => searchRetry rest

/-- `_parse_retry_delay_seconds(msg)` (lines 33–41): the parsed `N` of a
`retry in N s` pattern, or 10.0 when no pattern matches. -/
def parse_retry_delay_seconds (msg : List Char) : Rat :=
  match searchRetry msg with
  | some (ds, fs) => numVal ds fs
  | none => 10

/-- Python substring membership `needle in haystack`. -/
def containsSub (needle : List Char) : List Char → Bool
  | [] => needle.isEmpty
  | l@(_ :: rest) => List.isPrefixOf needle l || containsSub needle rest

/-- The quota / rate-limit test of `invoke_with_retry` (line 49):
`"Quota exceeded" in emsg or "rate limit" in emsg.lower()`.  Note that the
first membership test is case-SENSITIVE in the source; only the second is
effectively case-insensitive. -/
def quotaHit (emsg : List Char) : Bool :=
  containsSub "Quota exceeded".toList emsg ||
    containsSub "rate limit".toList (emsg.map Char.toLower)

/-- Modelled from the spec's words (claim C4 / spec §4.2): the message
"contains a case-insensitive indicator of quota/rate-limit exhaustion".
Used only to compare the claim's reading against the code's `quotaHit`. -/
def specQuotaIndicator (emsg : List Char) : Bool :=
  containsSub "quota exceeded".toList (emsg.map Char.toLower) ||
    containsSub "rate limit".toList (emsg.map Char.toLower)

/-- The delay computed for a failed attempt (lines 48–52). -/
def computeDelay (emsg : List Char) (attempt : Nat) (baseDelay : Rat) : Rat :=
  if quotaHit emsg then parse_retry_delay_seconds emsg
  else baseDelay * (attempt : Rat)

/-- Observable trace of one `invoke_with_retry` run: the outcome (`.ok none`
models Python falling off the loop and returning `None`, `.error e` the final
re-raise of the last error), the number of service invocations made, and the
sequence of sleeps performed, in order. -/
structure RetryTrace (ρ : Type) where
  result : Except (List Char) (Option ρ)
  calls : Nat
  sleeps : List Rat

/-- Body of the `for attempt in range(1, max_retries + 1)` loop of
`invoke_with_retry` (lines 43–57), traversing the list of attempt numbers.
The service oracle maps each attempt number to that call's outcome, an
error being identified with its stringified message `str(e)`. -/
def retryGo (service : Nat → Except (List Char) ρ) (maxRetries : Int)
    (baseDelay : Rat) : List Nat → RetryTrace ρ
  | [] => ⟨.ok none, 0, []⟩
  | attempt :: rest =>
    match service attempt with
    | .ok r => ⟨.ok (some r), 1, []⟩
    | .error e =>
      let delay := computeDelay e attempt baseDelay
      if (attempt : Int) = maxRetries then ⟨.error e, 1, []⟩
      else
        let t := retryGo service maxRetries baseDelay rest
        ⟨t.result, t.calls + 1, delay :: t.sleeps⟩

/-- `invoke_with_retry(model, messages, max_retries, base_delay)`
(lines 43–57): attempts are numbered `1 .. max_retries` (the Python defaults
are `max_retries=5`, `base_delay=2.0`). -/
def invoke_with_retry (service : Nat → Except (List Char) ρ) (maxRetries : Int)
    (baseDelay : Rat) : RetryTrace ρ :=
  retryGo service maxRetries baseDelay (List.range' 1 maxRetries.toNat)

/-! ## Chunked corrector (`correct_transcript_chunked`, `generate_title`) -/

/-- `TranscriptResponse` (lines 28–30): structured model output. -/
structure TranscriptResponse where
  title : List Char
  transcript : List Char
  deriving DecidableEq

/-- Line-break characters relevant to `str.splitlines()` here; the texts in
scope contain no exotic Unicode line breaks, so `\n` and `\r` suffice. -/
def isNL (c : Char) : Bool := c = '\n' || c = '\r'

/-- `generate_title(corrected_full)` (lines 101–121), the model call
abstracted as `tO`: the prompt carries only the first 25000 characters; the
response's first line, truncated to 120 characters, is returned; any failure
— including an empty response, whose `splitlines()[0]` raises `IndexError`
inside the `try` — yields the fallback `"Transcript"`. -/
def generate_title (tO : List Char → Except Unit (List Char))
    (correctedFull : List Char) : List Char :=
  match tO (correctedFull.take 25000) with
  | .error _ => "Transcript".toList
  | .ok resp =>
    let content := stripWS resp
    if content.isEmpty then "Transcript".toList
    else (content.takeWhile (fun c => !isNL c)).take 120

/-- The decimal digit character for `d < 10`. -/
def natDigitChar (d : Nat) : Char := Char.ofNat (48 + d)

/-- Fuel-driven decimal rendering; fuel `n + 1` always suffices. -/
def natDigitsGo : Nat → Nat → List Char → List Char
  | 0, _, acc => acc
  | fuel + 1, n, acc =>
    if n < 10 then natDigitChar n :: acc
    else natDigitsGo fuel (n / 10) (natDigitChar (n % 10) :: acc)

/-- Python `f"{n}"` for a natural number. -/
def natDigits (n : Nat) : List Char := natDigitsGo (n + 1) n []

/-- The placeholder `f"[Chunk {idx} correction failed]\n"` prefixed to a
failed chunk's original text (line 162). -/
def chunkFailMarker (idx : Nat) : List Char :=
  "[Chunk ".toList ++ natDigits idx ++ " correction failed]".toList ++ ['\n']

/-- Pair each element with its position, counting from `n` (the 1-based
`enumerate(chunks, start=1)` of line 153). -/
def withIdxFrom (n : Nat) : List α → List (Nat × α)
  | [] => []
  | a :: as => (n, a) :: withIdxFrom (n + 1) as

/-- The `corrected_parts` list built by the chunk loop (lines 151–165): per
chunk, the stripped corrected transcript on success, or the failure
placeholder wrapping the original chunk text on a per-chunk exception. -/
def chunkParts (cO : List Char → Except Unit TranscriptResponse)
    (rawText : List Char) (chunkSize : Nat) : List (List Char) :=
  (withIdxFrom 1 (split_text_into_chunks rawText chunkSize)).map (fun ic =>
    match cO ic.2 with
    | .ok resp => stripWS resp.transcript
    | .error _ => chunkFailMarker ic.1 ++ ic.2)

/-- `correct_transcript_chunked(raw_text, chunk_size, ...)` (lines 138–170).
The per-chunk structured correction call (`correct_transcript`, itself one
`invoke_with_retry` round against the model) is abstracted as the oracle
`cO`, the title-generation call as `tO`.  First component: the result — in
the single-chunk path the code calls `correct_transcript(raw_text)` with no
handler, so its exception propagates (`.error`); in the multi-chunk path
per-chunk exceptions are caught in the loop.  Second component: the number
of model interactions (one per chunk, plus the title call in the multi-chunk
path).  Logging and the inter-chunk sleep are not modelled. -/
def correct_transcript_chunked (cO : List Char → Except Unit TranscriptResponse)
    (tO : List Char → Except Unit (List Char))
    (rawText : List Char) (chunkSize : Nat) :
    Except Unit TranscriptResponse × Nat :=
  let chunks := split_text_into_chunks rawText chunkSize
  if chunks.length = 1 then (cO rawText, 1)
  else
    let combined := stripWS (joinSep nl2 (chunkParts cO rawText chunkSize))
    (.ok ⟨generate_title tO combined, combined⟩, chunks.length + 1)

/-! ## Batched paragraph summarizer (`summarize_paragraphs`) -/

/-- Split at every occurrence of `c`.  Models `content.splitlines()` for the
texts in scope, whose line breaks are `\n` (a stripped `content` never ends
in a line break, so the trailing-separator discrepancy between `splitlines`
and separator-splitting cannot arise). -/
def splitOnChar (c : Char) : List Char → List (List Char)
  | [] => [[]]
  | a :: rest =>
    if a = c then [] :: splitOnChar c rest
    else
      match splitOnChar c rest with
      | [] => [[a]]
      | s :: ss => (a :: s) :: ss

/-- The bullet-normalisation loop over a batch response's lines
(lines 273–279): strip each line, skip blanks, and prefix `"- "` to a line
not already starting with a dash (after `lstrip("- ")` and a re-strip). -/
def processRespLines : List (List Char) → List (List Char)
  | [] => []
  | ln :: rest =>
    let s := stripWS ln
    if s.isEmpty then processRespLines rest
    else if s.head? = some '-' then s :: processRespLines rest
    else ("- ".toList ++ stripWS (s.dropWhile (fun c => c = '-' || c = ' ')))
      :: processRespLines rest

/-- `f"- P{i}: (summary failed)"` (line 283). -/
def failedBullet (i : Nat) : List Char :=
  "- P".toList ++ natDigits i ++ ": (summary failed)".toList

/-- The batch loop of `summarize_paragraphs` (lines 252–283): `start` is the
0-based index of the current batch's first paragraph; the oracle `pO` maps
the 1-based index of a batch's first paragraph together with the batch
itself (the data that determines the prompt) to the model response for that
batch's single request.  Returns the collected bullet lines and the list of
per-request batch sizes, in order.  A failed batch contributes one
placeholder bullet per paragraph (`range(first_index, last_index + 1)`) and
the loop continues with the next batch. -/
def sumGo (pO : Nat → List (List Char) → Except Unit (List Char)) :
    Nat → List (List (List Char)) → List (List Char) × List Nat
  | _, [] => ([], [])
  | start, batch :: rest =>
    let first := start + 1
    let contribution :=
      match pO first batch with
      | .ok content => processRespLines (splitOnChar '\n' (stripWS content))
      | .error _ => (List.range' first batch.length).map failedBullet
    let t := sumGo pO (start + batch.length) rest
    (contribution ++ t.1, batch.length :: t.2)

/-- `summarize_paragraphs(corrected, batch_size)` (lines 241–284), the
batched model request abstracted as `pO`.  First component: the returned
summary text; second component: the sizes of the batched requests issued,
in order.  `batch_size = 0` would make the Python `range` raise; all claims
assume a positive batch size. -/
def summarize_paragraphs (pO : Nat → List (List Char) → Except Unit (List Char))
    (corrected : List Char) (batchSize : Nat) : List Char × List Nat :=
  let blocks := paragraphs corrected
  if blocks.isEmpty then ("Paragraph Summaries:\n- (No content)".toList, [])
  else
    let t := sumGo pO 0 (sliceEvery batchSize blocks)
    ("Paragraph Summaries:\n".toList ++ joinSep ['\n'] t.1, t.2)

/-- A bullet line in the exact format `summarize_paragraphs` demands from the
model for paragraph `n`: whitespace-stripped, free of line breaks, and
starting with `- P<n>:`. -/
def goodLine (n : Nat) (ln : List Char) : Prop :=
  stripWS ln = ln ∧ (∀ c ∈ ln, c ≠ '\n')
    ∧ List.isPrefixOf ("- P".toList ++ natDigits n ++ [':']) ln = true

instance goodLineDecidable (n : Nat) (ln : List Char) : Decidable (goodLine n ln) := by
  unfold goodLine
  infer_instance

/-- A model response in the exact demanded format for the batch whose first
paragraph has 1-based index `first`: one good bullet line per paragraph of
the batch, joined by single newlines, with no surrounding whitespace. -/
def goodResponse (first : Nat) (batch : List (List Char))
    (content : List Char) : Prop :=
  ∃ lines, content = joinSep ['\n'] lines
    ∧ stripWS content = content
    ∧ lines.length = batch.length
    ∧ ∀ i (h : i < lines.length), goodLine (first + i) (lines.get ⟨i, h⟩)

/-- Concrete 85-paragraph corrected text used to witness the batching
scenario. -/
def wCorrected : List Char := joinSep nl2 (List.replicate 85 ['x'])

/-- An exactly-as-demanded model response for a batch of `len` paragraphs
whose first paragraph has 1-based index `first`. -/
def canonResp (first len : Nat) : List Char :=
  joinSep ['\n'] ((List.range' first len).map (fun n =>
    "- P".toList ++ natDigits n ++ ": ok".toList))

/-- Witness oracle answering every batch in the demanded format. -/
def pOWA : Nat → List (List Char) → Except Unit (List Char) :=
  fun first batch => .ok (canonResp first batch.length)

/-- Witness oracle failing exactly the second batch (first index 41). -/
def pOWB : Nat → List (List Char) → Except Unit (List Char) :=
  fun first batch =>
    if first = 41 then .error () else .ok (canonResp first batch.length)

/-! ## URL parsing (`extract_video_id`) -/

/-- Split at the first occurrence of `c`: the part before it, and the part
after it (`none` when `c` is absent) — Python `s.split(c, 1)`. -/
def splitOnce (c : Char) : List Char → List Char × Option (List Char)
  | [] => ([], none)
  | a :: rest =>
    if a = c then ([], some rest)
    else
      let t := splitOnce c rest
      (a :: t.1, t.2)

/-- Valid characters of a URL scheme after its leading letter. -/
def isSchemeChar (c : Char) : Bool :=
  c.isAlphanum || c = '+' || c = '-' || c = '.'

/-- The `(path, query)` of `urlparse(url)` as used by `extract_video_id`.
Modelled after `urllib.parse.urlsplit`: remove `scheme:` when the prefix
before the first `:` is a well-formed scheme (leading letter, then
letters/digits/`+`/`-`/`.`), remove a `//netloc` ending at the first `/`,
`?` or `#`, drop the fragment after the first `#`, and split the query off
at the first `?`.  Percent-decoding is not modelled; no claim involves
percent-encoded URLs. -/
def urlPathQuery (url : List Char) : List Char × List Char :=
  let afterScheme :=
    match splitOnce ':' url with
    | (c0 :: cs, some rest) =>
      if c0.isAlpha && cs.all isSchemeChar then rest else url
    | _ => url
  let afterNetloc :=
    match afterScheme with
    | '/' :: '/' :: rest =>
      rest.dropWhile (fun c => !(c = '/' || c = '?' || c = '#'))
    | l => l
  let beforeFrag := (splitOnce '#' afterNetloc).1
  match splitOnce '?' beforeFrag with
  | (path, some q) => (path, q)
  | (path, none) => (path, [])

/-- `parse_qs(parsed.query).get("v", [])` without percent-decoding: the
values of `v=`-pairs with non-empty values, in order (pairs with empty
values and fragments without `=` are dropped by `parse_qs`'s defaults). -/
def queryVValues (query : List Char) : List (List Char) :=
  (splitOnChar '&' query).filterMap (fun seg =>
    match splitOnce '=' seg with
    | (key, some v) => if key = ['v'] && !v.isEmpty then some v else none
    | (_, none) => none)

/-- The character class `[0-9A-Za-z_-]` of the fallback regex patterns. -/
def isIdChar (c : Char) : Bool := c.isAlphanum || c = '_' || c = '-'

/-- Leftmost search for `(?:v=|\/)([0-9A-Za-z_-]{11})` (line 187): at each
position try `v=`, then `/`, each followed by exactly 11 id characters
(the trailing `.*` always matches). -/
def searchPat1 : List Char → Option (List Char)
  | [] => none
  | 'v' :: '=' :: r =>
    if (r.take 11).length = 11 && (r.take 11).all isIdChar then some (r.take 11)
    else searchPat1 ('=' :: r)
  | '/' :: r =>
    if (r.take 11).length = 11 && (r.take 11).all isIdChar then some (r.take 11)
    else searchPat1 r
  | _ :: rest => searchPat1 rest

/-- Strip an exact (case-sensitive) literal from the front. -/
def stripExact : List Char → List Char → Option (List Char)
  | [], s => some s
  | _ :: _, [] => none
  | p :: ps, c :: cs => if p = c then stripExact ps cs else none

/-- Leftmost search for `youtu\.be\/([0-9A-Za-z_-]{11})` (line 187). -/
def searchPat2 : List Char → Option (List Char)
  | [] => none
  | l@(_ :: rest) =>
    match stripExact "youtu.be/".toList l with
    | some r =>
      if (r.take 11).length = 11 && (r.take 11).all isIdChar then some (r.take 11)
      else searchPat2 rest
    | none => searchPat2 rest

/-- The path-segment and regex fallbacks of `extract_video_id`
(lines 181–192): the last path segment of length 11, else the two regex
patterns in order. -/
def extractFromPath (path url : List Char) : Option (List Char) :=
  let candidates := (splitOnChar '/' path).filter (fun seg => !seg.isEmpty)
  match candidates.reverse.find? (fun seg => decide (seg.length = 11)) with
  | some seg => some seg
  | none =>
    match searchPat1 url with
    | some g => some g
    | none => searchPat2 url

/-- `extract_video_id(youtube_url)` (lines 174–192). -/
def extract_video_id (url : List Char) : Option (List Char) :=
  let pq := urlPathQuery url
  match queryVValues pq.2 with
  | v0 :: _ => if v0.length = 11 then some v0 else extractFromPath pq.1 url
  | [] => extractFromPath pq.1 url

/-! ## Artifact-cache orchestrator (`process_video`) -/

/-- Flat filesystem model: directories that exist, and an association list
of files where later writes shadow earlier entries.  Paths are plain
strings; OS path resolution (sub-directories inside a written file name,
special characters) is outside the model. -/
structure FS where
  dirs : List (List Char)
  files : List (List Char × List Char)

def fsRead (fs : FS) (path : List Char) : Option (List Char) :=
  (fs.files.find? (fun pc => decide (pc.1 = path))).map (fun pc => pc.2)

def fsIsFile (fs : FS) (path : List Char) : Bool := (fsRead fs path).isSome

def fsWrite (fs : FS) (path content : List Char) : FS :=
  ⟨fs.dirs, (path, content) :: fs.files⟩

/-- `os.makedirs(video_dir, exist_ok=True)` (line 306). -/
def fsMkdir (fs : FS) (d : List Char) : FS :=
  if d ∈ fs.dirs then fs else ⟨d :: fs.dirs, fs.files⟩

/-- `title_txt_in_dir(video_dir)` (lines 389–398) under the flat filesystem
model: is there a file matching `video_dir/title_*.txt`?  The glob is prefix
`title_`, suffix `.txt`, with at least their combined length.  (The
`NotADirectoryError` branch is unreachable here: `process_video` calls this
only after `os.makedirs(video_dir)`.) -/
def title_txt_in_dir (fs : FS) (videoDir : List Char) : Bool :=
  fs.files.any (fun pc =>
    List.isPrefixOf (videoDir ++ '/' :: "title_".toList) pc.1
    && List.isSuffixOf ".txt".toList pc.1
    && decide (videoDir.length + 11 ≤ pc.1.length))

/-- The external collaborators of `process_video`, as deterministic oracles:
`fetched` is the string `get_transcript_from_url(url)` returns (the
transcript, or an `"Error: ..."` string — the YouTube transcript API, not
the text-generation service); `correct` abstracts one structured correction
call; `title` the title-generation call; `parsum` the batched
paragraph-summary call (keyed as in `sumGo`); `summary` the global summary
call.  Each of the last four stands for one `invoke_with_retry` round
against the text-generation service, `.error` being a raise after retry
exhaustion — so zero oracle invocations is exactly zero service requests. -/
structure Oracles where
  fetched : List Char
  correct : List Char → Except Unit TranscriptResponse
  title : List Char → Except Unit (List Char)
  parsum : Nat → List (List Char) → Except Unit (List Char)
  summary : List Char → Except Unit (List Char)

inductive PVOutcome
  /-- `ValueError` — no extractable video id (line 303). -/
  | badUrl
  /-- Fetch returned an `Error:` string; early `return` (line 325). -/
  | fetchError
  /-- Uncaught exception escaping the correction stage (line 337). -/
  | correctRaised
  /-- Normal completion. -/
  | done
  deriving DecidableEq

/-- Text-generation service interactions per stage.  `fetchTextGen` is the
Fetch stage's count (identically zero: that stage only calls the transcript
API); `correctCalls` the Correct stage's (chunk corrections plus title);
`laterCalls` those of the paragraph-summary and summary stages. -/
structure PVTrace where
  fetchTextGen : Nat
  correctCalls : Nat
  laterCalls : Nat
  deriving DecidableEq

/-- Step 2.5 of `process_video` (lines 355–369): paragraph summaries,
skipped when disabled or cached; its batch requests are counted.  The
surrounding `try/except` only guards the write, which cannot fail in the
model (`summarize_paragraphs` catches its per-batch errors itself). -/
def pvParStage (o : Oracles) (force dp : Bool) (batchSize : Nat)
    (parPath corrected : List Char) (fs : FS) : FS × Nat :=
  if dp then (fs, 0)
  else if !force && fsIsFile fs parPath then (fs, 0)
  else (fsWrite fs parPath (summarize_paragraphs o.parsum corrected batchSize).1,
        (summarize_paragraphs o.parsum corrected batchSize).2.length)

/-- Step 3 of `process_video` (lines 370–384): the global summary, skipped
when disabled or cached; a raise from `summarize_transcript` is caught and
merely skips the write (the call still happened). -/
def pvSumStage (o : Oracles) (force ds : Bool)
    (summaryPath corrected : List Char) (fs : FS) : FS × Nat :=
  if ds then (fs, 0)
  else if !force && fsIsFile fs summaryPath then (fs, 0)
  else
    match o.summary corrected with
    | .ok s => (fsWrite fs summaryPath s, 1)
    | .error _ => (fs, 1)

/-- Steps 2.5 and 3 in sequence, assembling the final outcome and trace. -/
def pvLaterStages (o : Oracles) (force dp ds : Bool) (batchSize : Nat)
    (parPath summaryPath corrected : List Char) (correctCalls : Nat)
    (fs : FS) : FS × PVOutcome × PVTrace :=
  ((pvSumStage o force ds summaryPath corrected
      (pvParStage o force dp batchSize parPath corrected fs).1).1,
   .done,
   ⟨0, correctCalls,
    (pvParStage o force dp batchSize parPath corrected fs).2
      + (pvSumStage o force ds summaryPath corrected
          (pvParStage o force dp batchSize parPath corrected fs).1).2⟩)

/-- `process_video(url, force, base_dir, chunk_size, ...)` (lines 288–386)
over the flat filesystem model: returns the filesystem after the run, the
outcome, and the per-stage count of text-generation service interactions.
Logging and the log file are not modelled. -/
def process_video (o : Oracles) (url : List Char) (force : Bool)
    (baseDir : List Char) (chunkSize : Nat) (dp ds : Bool) (batchSize : Nat)
    (fs : FS) : FS × PVOutcome × PVTrace :=
  match extract_video_id url with
  | none => (fs, .badUrl, ⟨0, 0, 0⟩)
  | some vid =>
    let videoDir := baseDir ++ '/' :: vid
    let fs1 := fsMkdir fs videoDir
    let originalPath := videoDir ++ '/' :: "original_transcript.md".toList
    let correctedPath := videoDir ++ '/' :: "corrected_transcript.md".toList
    let summaryPath := videoDir ++ '/' :: "summary.md".toList
    let parPath := videoDir ++ '/' :: "paragraph_summaries.md".toList
    -- Step 1: fetch (no text-generation interaction)
    let step1 : Option (FS × List Char) :=
      if !force && fsIsFile fs1 originalPath then
        some (fs1, (fsRead fs1 originalPath).getD [])
      else if List.isPrefixOf "Error:".toList o.fetched then none
      else some (fsWrite fs1 originalPath o.fetched, o.fetched)
    match step1 with
    | none => (fs1, .fetchError, ⟨0, 0, 0⟩)
    | some (fs2, transcript) =>
      -- Step 2: correct (chunk-aware; cached on corrected + title_* files)
      if !force && fsIsFile fs2 correctedPath && title_txt_in_dir fs2 videoDir then
        pvLaterStages o force dp ds batchSize parPath summaryPath
          ((fsRead fs2 correctedPath).getD []) 0 fs2
      else
        match correct_transcript_chunked o.correct o.title transcript chunkSize with
        | (.error _, calls) => (fs2, .correctRaised, ⟨0, calls, 0⟩)
        | (.ok resp, calls) =>
          let fs3 := fsWrite fs2 correctedPath resp.transcript
          let safeTitle := resp.title.map (fun c => if c = ' ' then '_' else c)
          let titlePath :=
            videoDir ++ '/' :: "title_".toList ++ safeTitle ++ ".txt".toList
          let fs4 := fsWrite fs3 titlePath resp.title
          pvLaterStages o force dp ds batchSize parPath summaryPath
            resp.transcript calls fs4

/-- Fetched text, correction, title, paragraph-summary and summary oracles
used by the caching witness. -/
def wOracles : Oracles :=
  ⟨"para1\n\npara2\n\npara3".toList,
   fun s => .ok ⟨"T w".toList, "ok:".toList ++ s⟩,
   fun _ => .ok "Title".toList,
   fun first batch => .ok (canonResp first batch.length),
   fun _ => .ok "S".toList⟩

/-! ## Lemmas about the chunker -/

theorem joinSep_append_single (sep : List Char) (xs : List (List Char)) (p : List Char) :
    joinSep sep (xs ++ [p]) =
      if xs.isEmpty then p else joinSep sep xs ++ sep ++ p := by
  induction xs with
  | nil => simp [joinSep]
  | cons a as ih =>
    cases as with
    | nil => simp [joinSep]
    | cons b bs =>
      show joinSep sep (a :: ((b :: bs) ++ [p])) = _
      have h2 : joinSep sep (a :: ((b :: bs) ++ [p])) =
          a ++ sep ++ joinSep sep ((b :: bs) ++ [p]) := rfl
      rw [h2, ih]
      simp [joinSep, List.append_assoc]

theorem sliceGo_nil (n fuel : Nat) : sliceGo (α := α) n fuel [] = [] := by
  cases fuel <;> rfl

theorem sliceGo_length_le (n fuel : Nat) (l : List α) :
    ∀ s ∈ sliceGo n fuel l, s.length ≤ n := by
  induction fuel generalizing l with
  | zero => simp [sliceGo]
  | succ f ih =>
    cases l with
    | nil => simp [sliceGo]
    | cons a as =>
      intro s hs
      simp only [sliceGo, List.mem_cons] at hs
      rcases hs with rfl | hs
      · exact List.length_take_le n _
      · exact ih _ s hs

theorem sliceGo_concat (n : Nat) (hn : 1 ≤ n) :
    ∀ (fuel : Nat) (l : List α), l.length ≤ fuel →
      (sliceGo n fuel l).foldr (· ++ ·) [] = l := by
  intro fuel
  induction fuel with
  | zero =>
    intro l hl
    have : l = [] := List.length_eq_zero.mp (Nat.le_zero.mp hl)
    simp [this, sliceGo]
  | succ f ih =>
    intro l hl
    cases l with
    | nil => simp [sliceGo]
    | cons a as =>
      simp only [sliceGo, List.foldr_cons]
      rw [ih]
      · exact List.take_append_drop n (a :: as)
      · have hd : (List.drop n (a :: as)).length = (a :: as).length - n :=
          List.length_drop n (a :: as)
        simp only [List.length_cons] at hl hd
        omega

theorem sliceGo_ne_nil (n fuel : Nat) (l : List α) (hf : 1 ≤ fuel) (hl : l ≠ []) :
    sliceGo n fuel l ≠ [] := by
  cases fuel with
  | zero => omega
  | succ f => cases l with
    | nil => exact absurd rfl hl
    | cons a as => simp [sliceGo]

theorem sliceGo_dropLast_length (n : Nat) (hn : 1 ≤ n) :
    ∀ (fuel : Nat) (l : List α), l.length ≤ fuel →
      ∀ s ∈ (sliceGo n fuel l).dropLast, s.length = n := by
  intro fuel
  induction fuel with
  | zero =>
    intro l hl
    have : l = [] := List.length_eq_zero.mp (Nat.le_zero.mp hl)
    simp [this, sliceGo]
  | succ f ih =>
    intro l hl
    cases l with
    | nil => simp [sliceGo]
    | cons a as =>
      by_cases hd : (a :: as).drop n = []
      · simp [sliceGo, hd, sliceGo_nil]
      · have hne : sliceGo n f ((a :: as).drop n) ≠ [] := by
          apply sliceGo_ne_nil
          · have := List.length_drop n (a :: as)
            have : (a :: as).drop n ≠ [] := hd
            have hpos : 0 < ((a :: as).drop n).length := List.length_pos.mpr hd
            simp only [List.length_drop] at hpos
            omega
          · exact hd
        intro s hs
        simp only [sliceGo] at hs
        rw [List.dropLast_cons_of_ne_nil hne] at hs
        rcases List.mem_cons.mp hs with rfl | hs
        · have hlen : n < (a :: as).length := by
            have hpos : 0 < ((a :: as).drop n).length := List.length_pos.mpr hd
            simp only [List.length_drop] at hpos
            omega
          simp only [List.length_take]
          omega
        · apply ih ((a :: as).drop n) _ s hs
          simp only [List.length_drop, List.length_cons] at hl ⊢
          omega

/-- Invariant-carrying statement for the greedy packing loop: every produced
chunk either fits in `maxChars` or is literally one of the paragraphs in the
ambient set `S`. -/
theorem packGo_chunk_cases (maxChars : Nat) (S : List (List Char)) :
    ∀ (ps current : List (List Char)) (currentLen : Nat),
      (joinSep nl2 current).length ≤ currentLen →
      (current ≠ [] → (joinSep nl2 current).length ≤ maxChars ∨
        ∃ p, current = [p] ∧ p ∈ S) →
      (∀ p ∈ ps, p ∈ S) →
      ∀ c ∈ packGo maxChars ps current currentLen,
        c.length ≤ maxChars ∨ c ∈ S := by
  intro ps
  induction ps with
  | nil =>
    intro current currentLen _ hcur _ c hc
    rw [packGo] at hc
    by_cases hcE : current = []
    · subst hcE
      simp at hc
    · have hE : current.isEmpty = false := by simpa using hcE
      rw [hE] at hc
      simp only [Bool.false_eq_true, if_false, List.mem_singleton] at hc
      subst hc
      rcases hcur hcE with h | ⟨p, rfl, hp⟩
      · exact Or.inl h
      · exact Or.inr (by simpa [joinSep] using hp)
  | cons para rest ih =>
    intro current currentLen hlen hcur hps c hc
    rw [packGo] at hc
    by_cases hcE : current = []
    · subst hcE
      simp only [List.isEmpty_nil, Bool.not_true, Bool.false_and, Bool.false_eq_true,
        if_false] at hc
      refine ih ([] ++ [para]) (currentLen + (para.length + 2)) ?_ ?_
        (fun p hp => hps p (List.mem_cons_of_mem _ hp)) c ?_
      · simp only [List.nil_append, joinSep]
        omega
      · intro _
        exact Or.inr ⟨para, by simp, hps para (List.mem_cons_self _ _)⟩
      · exact hc
    · have hE : current.isEmpty = false := by simpa using hcE
      by_cases hlt : maxChars < currentLen + (para.length + 2)
      · have hcond : (!current.isEmpty &&
            decide (maxChars < currentLen + (para.length + 2))) = true := by
          simp [hE, hlt]
        rw [if_pos hcond] at hc
        rcases List.mem_cons.mp hc with rfl | hc
        · rcases hcur hcE with h | ⟨p, rfl, hp⟩
          · exact Or.inl h
          · exact Or.inr (by simpa [joinSep] using hp)
        · refine ih [para] para.length (by simp [joinSep]) ?_
            (fun p hp => hps p (List.mem_cons_of_mem _ hp)) c hc
          intro _
          exact Or.inr ⟨para, rfl, hps para (List.mem_cons_self _ _)⟩
      · have hcond : ¬ ((!current.isEmpty &&
            decide (maxChars < currentLen + (para.length + 2))) = true) := by
          simp [hlt]
        rw [if_neg hcond] at hc
        refine ih (current ++ [para]) (currentLen + (para.length + 2)) ?_ ?_
          (fun p hp => hps p (List.mem_cons_of_mem _ hp)) c hc
        · rw [joinSep_append_single]
          rw [hE]
          simp only [Bool.false_eq_true, if_false, List.length_append]
          have h2 : nl2.length = 2 := rfl
          omega
        · intro _
          left
          rw [joinSep_append_single, hE]
          simp only [Bool.false_eq_true, if_false, List.length_append]
          have h2 : nl2.length = 2 := rfl
          omega

theorem mem_fold_slices {f : List Char → List (List Char)} :
    ∀ (ls : List (List Char)) (c : List Char),
      c ∈ ls.foldr (fun d acc => f d ++ acc) [] ↔ ∃ d ∈ ls, c ∈ f d := by
  intro ls c
  induction ls with
  | nil => simp
  | cons x xs ih => simp [List.mem_append, ih]

/-- C2: every chunk returned by `split_text_into_chunks` has length at most
`max_chars`; a greedily packed chunk can exceed the limit only by being a
single over-long paragraph verbatim; and the hard-slice fallback cuts such a
chunk into slices of exactly `max_chars` characters, only the final slice
possibly shorter, losslessly. -/
theorem split_chunks_length_bound (text : List Char) (maxChars : Nat)
    (h1 : 1 ≤ maxChars) :
    (∀ c ∈ split_text_into_chunks text maxChars, c.length ≤ maxChars)
    ∧ (∀ c ∈ packGo maxChars (paragraphs text) [] 0,
        maxChars < c.length → c ∈ paragraphs text)
    ∧ (∀ c : List Char, maxChars < c.length →
        (∀ s ∈ (sliceEvery maxChars c).dropLast, s.length = maxChars)
        ∧ (∀ s ∈ sliceEvery maxChars c, s.length ≤ maxChars)
        ∧ (sliceEvery maxChars c).foldr (· ++ ·) [] = c) := by
  refine ⟨?_, ?_, ?_⟩
  · intro c hc
    rw [split_text_into_chunks] at hc
    by_cases hle : text.length ≤ maxChars
    · rw [if_pos hle] at hc
      simp only [List.mem_singleton] at hc
      subst hc
      exact hle
    · rw [if_neg hle] at hc
      rcases (mem_fold_slices _ c).mp hc with ⟨d, _, hcd⟩
      by_cases hdl : d.length ≤ maxChars
      · rw [if_pos hdl] at hcd
        simp only [List.mem_singleton] at hcd
        subst hcd
        exact hdl
      · rw [if_neg hdl] at hcd
        exact sliceGo_length_le maxChars d.length d c hcd
  · intro c hc hlen
    rcases packGo_chunk_cases maxChars (paragraphs text) (paragraphs text) [] 0
      (by simp [joinSep]) (by intro h; exact absurd rfl h) (fun _ hp => hp) c hc with
      h | h
    · omega
    · exact h
  · intro c _
    exact ⟨sliceGo_dropLast_length maxChars h1 c.length c (Nat.le_refl _),
      fun s hs => sliceGo_length_le maxChars c.length c s hs,
      sliceGo_concat maxChars h1 c.length c (Nat.le_refl _)⟩

/-- Hypothesis `1 ≤ 2` discharged at `text = "aaaaa"`, `max_chars = 2`. -/
theorem split_chunks_length_bound_witness :
    1 ≤ 2 ∧
    ((∀ c ∈ split_text_into_chunks "aaaaa".toList 2, c.length ≤ 2)
    ∧ (∀ c ∈ packGo 2 (paragraphs "aaaaa".toList) [] 0,
        2 < c.length → c ∈ paragraphs "aaaaa".toList)
    ∧ (∀ c : List Char, 2 < c.length →
        (∀ s ∈ (sliceEvery 2 c).dropLast, s.length = 2)
        ∧ (∀ s ∈ sliceEvery 2 c, s.length ≤ 2)
        ∧ (sliceEvery 2 c).foldr (· ++ ·) [] = c)) :=
  ⟨by decide, split_chunks_length_bound "aaaaa".toList 2 (by decide)⟩

/-! ## Non-whitespace content preservation (C8) -/

theorem nwf_append (a b : List Char) : nwf (a ++ b) = nwf a ++ nwf b := by
  simp [nwf]

theorem nwf_cons (c : Char) (l : List Char) :
    nwf (c :: l) = (if isSpaceC c = true then [] else [c]) ++ nwf l := by
  by_cases h : isSpaceC c <;> simp [nwf, List.filter_cons, h]

theorem nwf_reverse (l : List Char) : nwf l.reverse = (nwf l).reverse := by
  simp [nwf, List.filter_reverse]

theorem nwf_replicate_nl (p : Nat) : nwf (List.replicate p '\n') = [] := by
  induction p with
  | zero => rfl
  | succ k ih => simp [List.replicate_succ, nwf_cons, isSpaceC, ih]

theorem nwf_dropWhile_ws (l : List Char) : nwf (l.dropWhile isSpaceC) = nwf l := by
  induction l with
  | nil => rfl
  | cons a as ih =>
    by_cases h : isSpaceC a <;> simp [List.dropWhile_cons, h, nwf_cons, ih]

theorem nwf_stripWS (l : List Char) : nwf (stripWS l) = nwf l := by
  simp [stripWS, nwf_reverse, nwf_dropWhile_ws]

theorem nwfs_cons (x : List Char) (ls : List (List Char)) :
    nwfs (x :: ls) = nwf x ++ nwfs ls := rfl

theorem nwf_joinSep_of_ws_sep (sep : List Char) (hsep : nwf sep = []) :
    ∀ ls, nwf (joinSep sep ls) = nwfs ls := by
  intro ls
  induction ls with
  | nil => rfl
  | cons x xs ih =>
    cases xs with
    | nil => simp [joinSep, nwfs_cons, nwfs, nwf]
    | cons y ys =>
      show nwf (x ++ sep ++ joinSep sep (y :: ys)) = _
      rw [nwf_append, nwf_append, hsep, ih]
      simp [nwfs_cons]

theorem srGo_nwfs : ∀ (l acc : List Char) (p : Nat),
    nwfs (srGo l acc p) = nwf acc.reverse ++ nwf l := by
  intro l
  induction l with
  | nil =>
    intro acc p
    rw [srGo]
    by_cases h2 : 2 ≤ p
    · rw [if_pos h2, nwfs_cons, nwfs_cons]
      simp [nwfs, nwf]
    · rw [if_neg h2, nwfs_cons, nwf_append, nwf_replicate_nl]
      simp [nwfs, nwf]
  | cons c rest ih =>
    intro acc p
    rw [srGo]
    by_cases hc : c = '\n'
    · rw [if_pos hc, ih]
      subst hc
      simp [nwf_cons, isSpaceC]
    · rw [if_neg hc]
      by_cases h2 : 2 ≤ p
      · rw [if_pos h2, nwfs_cons, ih]
        have h3 : nwf (c :: rest) = nwf [c] ++ nwf rest := by
          by_cases hws : isSpaceC c <;> simp [nwf, List.filter_cons, hws]
        rw [h3]
        simp [List.append_assoc]
      · rw [if_neg h2, ih]
        have h3 : nwf (c :: rest) = nwf [c] ++ nwf rest := by
          by_cases hws : isSpaceC c <;> simp [nwf, List.filter_cons, hws]
        rw [h3]
        rw [show (c :: (List.replicate p '\n' ++ acc)).reverse
              = acc.reverse ++ (List.replicate p '\n').reverse ++ [c] by
            simp [List.reverse_cons, List.reverse_append, List.append_assoc]]
        rw [List.reverse_replicate, nwf_append, nwf_append, nwf_replicate_nl]
        simp [List.append_assoc]

theorem splitRuns_nwfs (text : List Char) : nwfs (splitRuns text) = nwf text := by
  have h := srGo_nwfs text [] 0
  simpa [nwf] using h

theorem nwfs_map_strip (ls : List (List Char)) :
    nwfs (ls.map stripWS) = nwfs ls := by
  induction ls with
  | nil => rfl
  | cons x xs ih => simp [nwfs_cons, nwf_stripWS, ih]

theorem nwfs_filter_nonempty (ls : List (List Char)) :
    nwfs (ls.filter (fun p => !p.isEmpty)) = nwfs ls := by
  induction ls with
  | nil => rfl
  | cons x xs ih =>
    by_cases hx : x.isEmpty
    · have : x = [] := List.isEmpty_iff.mp hx
      subst this
      simp [List.filter_cons, nwfs_cons, ih, nwf]
    · have hE : x.isEmpty = false := by
        cases hxe : x.isEmpty
        · rfl
        · exact absurd hxe hx
      simp [List.filter_cons, hE, nwfs_cons, ih]

theorem paragraphs_nwfs (text : List Char) : nwfs (paragraphs text) = nwf text := by
  rw [paragraphs]
  rw [nwfs_filter_nonempty, nwfs_map_strip, splitRuns_nwfs]

theorem packGo_nwfs (maxChars : Nat) :
    ∀ (ps current : List (List Char)) (currentLen : Nat),
      nwfs (packGo maxChars ps current currentLen) =
        nwf (joinSep nl2 current) ++ nwfs ps := by
  intro ps
  induction ps with
  | nil =>
    intro current currentLen
    rw [packGo]
    by_cases hcE : current = []
    · subst hcE
      simp [nwfs, nwf, joinSep]
    · have hE : current.isEmpty = false := by simpa using hcE
      rw [hE]
      simp [nwfs_cons, nwfs]
  | cons para rest ih =>
    intro current currentLen
    rw [packGo]
    by_cases hcE : current = []
    · subst hcE
      simp only [List.isEmpty_nil, Bool.not_true, Bool.false_and, Bool.false_eq_true,
        if_false]
      rw [ih]
      simp [joinSep, nwfs_cons, nwf]
    · have hE : current.isEmpty = false := by simpa using hcE
      by_cases hlt : maxChars < currentLen + (para.length + 2)
      · have hcond : (!current.isEmpty &&
            decide (maxChars < currentLen + (para.length + 2))) = true := by
          simp [hE, hlt]
        rw [if_pos hcond, nwfs_cons, ih]
        simp [joinSep, nwfs_cons, List.append_assoc]
      · have hcond : ¬ ((!current.isEmpty &&
            decide (maxChars < currentLen + (para.length + 2))) = true) := by
          simp [hlt]
        rw [if_neg hcond, ih, joinSep_append_single, hE]
        simp only [Bool.false_eq_true, if_false, nwf_append]
        rw [show nwf nl2 = [] from rfl]
        simp [nwfs_cons, List.append_assoc]

theorem nwfs_eq_nwf_fold (ls : List (List Char)) :
    nwfs ls = nwf (ls.foldr (· ++ ·) []) := by
  induction ls with
  | nil => rfl
  | cons x xs ih => simp [nwfs_cons, nwf_append, ih]

theorem nwfs_append (xs ys : List (List Char)) :
    nwfs (xs ++ ys) = nwfs xs ++ nwfs ys := by
  induction xs with
  | nil => rfl
  | cons x xs ih => simp [nwfs_cons, ih, List.append_assoc]

theorem split_chunks_nwfs (text : List Char) (maxChars : Nat) (h1 : 1 ≤ maxChars) :
    nwfs (split_text_into_chunks text maxChars) = nwf text := by
  rw [split_text_into_chunks]
  by_cases hle : text.length ≤ maxChars
  · rw [if_pos hle]
    simp [nwfs_cons, nwfs]
  · rw [if_neg hle]
    have hfold : ∀ chunks : List (List Char),
        nwfs (chunks.foldr (fun c acc =>
          (if c.length ≤ maxChars then [c] else sliceEvery maxChars c) ++ acc) []) =
        nwfs chunks := by
      intro chunks
      induction chunks with
      | nil => rfl
      | cons c cs ih =>
        simp only [List.foldr_cons]
        rw [nwfs_append, ih, nwfs_cons]
        congr 1
        by_cases hcl : c.length ≤ maxChars
        · simp [hcl, nwfs_cons, nwfs]
        · rw [if_neg hcl]
          rw [nwfs_eq_nwf_fold, sliceEvery, sliceGo_concat maxChars h1 c.length c (Nat.le_refl _)]
    rw [hfold, packGo_nwfs]
    simp only [joinSep]
    rw [paragraphs_nwfs]
    simp [nwf]

/-- C8: re-joining the chunks with the `"\n\n"` separator preserves exactly
the non-whitespace characters of the original text, in order (hence it
contains every non-whitespace character of the original paragraphs, in the
original order). -/
theorem split_chunks_rejoin_content (text : List Char) (maxChars : Nat)
    (h1 : 1 ≤ maxChars) :
    nwf (joinSep nl2 (split_text_into_chunks text maxChars)) = nwf text := by
  rw [nwf_joinSep_of_ws_sep nl2 rfl, split_chunks_nwfs text maxChars h1]

/-- Hypothesis `1 ≤ 2` discharged at `text = "ab\n\ncd efg"`, `max_chars = 2`. -/
theorem split_chunks_rejoin_content_witness :
    1 ≤ 2 ∧
    nwf (joinSep nl2 (split_text_into_chunks "ab\n\ncd efg".toList 2)) =
      nwf "ab\n\ncd efg".toList :=
  ⟨by decide, split_chunks_rejoin_content "ab\n\ncd efg".toList 2 (by decide)⟩

/-! ## Retrying invoker (C3, C4, C9) -/

theorem retryGo_cons_ok {ρ : Type} (service : Nat → Except (List Char) ρ)
    (maxR : Int) (base : Rat) (attempt : Nat) (rest : List Nat) (r : ρ)
    (h : service attempt = .ok r) :
    retryGo service maxR base (attempt :: rest) = ⟨.ok (some r), 1, []⟩ := by
  rw [retryGo, h]

theorem retryGo_cons_error {ρ : Type} (service : Nat → Except (List Char) ρ)
    (maxR : Int) (base : Rat) (attempt : Nat) (rest : List Nat) (e : List Char)
    (h : service attempt = .error e) :
    retryGo service maxR base (attempt :: rest) =
      if (attempt : Int) = maxR then ⟨.error e, 1, []⟩
      else ⟨(retryGo service maxR base rest).result,
            (retryGo service maxR base rest).calls + 1,
            computeDelay e attempt base :: (retryGo service maxR base rest).sleeps⟩ := by
  rw [retryGo, h]

theorem retryGo_fail_through {ρ : Type} (service : Nat → Except (List Char) ρ)
    (m : Nat → List Char) (M : Nat) (base : Rat)
    (hfail : ∀ i, service i = .error (m i)) :
    ∀ (n a : Nat), 1 ≤ n → a + n = M + 1 →
      retryGo service (M : Int) base (List.range' a n) =
        ⟨.error (m M), n,
          (List.range' a (n - 1)).map (fun i => computeDelay (m i) i base)⟩ := by
  intro n
  induction n with
  | zero => intro a h1 _; omega
  | succ k ih =>
    intro a _ hsum
    rw [show List.range' a (k + 1) = a :: List.range' (a + 1) k from rfl]
    rw [retryGo_cons_error service (M : Int) base a _ (m a) (hfail a)]
    cases k with
    | zero =>
      have ha : a = M := by omega
      subst ha
      rw [if_pos rfl]
      rfl
    | succ k2 =>
      have hne : ¬ ((a : Int) = (M : Int)) := by
        have : ¬ a = M := by omega
        exact_mod_cast this
      rw [if_neg hne]
      rw [ih (a + 1) (by omega) (by omega)]
      rfl

theorem retryGo_success {ρ : Type} (service : Nat → Except (List Char) ρ)
    (M K : Nat) (base : Rat) (r : ρ)
    (hK : service K = .ok r)
    (hbelow : ∀ i, 1 ≤ i → i < K → ∃ e, service i = .error e) :
    ∀ (n a : Nat), a + n = M + 1 → 1 ≤ a → a ≤ K → K ≤ M →
      (retryGo service (M : Int) base (List.range' a n)).result = .ok (some r)
      ∧ (retryGo service (M : Int) base (List.range' a n)).calls = K - a + 1
      ∧ (retryGo service (M : Int) base (List.range' a n)).sleeps.length = K - a := by
  intro n
  induction n with
  | zero => intro a hsum _ haK hKM; omega
  | succ k ih =>
    intro a hsum ha1 haK hKM
    rw [show List.range' a (k + 1) = a :: List.range' (a + 1) k from rfl]
    by_cases hEq : a = K
    · have hKa : service a = .ok r := by rw [hEq]; exact hK
      rw [retryGo_cons_ok service (M : Int) base a _ r hKa]
      refine ⟨rfl, ?_, ?_⟩
      · show 1 = K - a + 1
        omega
      · show ([] : List Rat).length = K - a
        simp only [List.length_nil]
        omega
    · have haltK : a < K := by omega
      obtain ⟨e, he⟩ := hbelow a ha1 haltK
      rw [retryGo_cons_error service (M : Int) base a _ e he]
      have hne : ¬ ((a : Int) = (M : Int)) := by
        have : ¬ a = M := by omega
        exact_mod_cast this
      rw [if_neg hne]
      obtain ⟨h1, h2, h3⟩ := ih (a + 1) (by omega) (by omega) (by omega) hKM
      refine ⟨h1, ?_, ?_⟩
      · show (retryGo service (M : Int) base (List.range' (a + 1) k)).calls + 1 = _
        omega
      · show (computeDelay e a base ::
            (retryGo service (M : Int) base (List.range' (a + 1) k)).sleeps).length = _
        simp only [List.length_cons]
        omega

/-- C3: with a permanently failing service, `invoke_with_retry` makes exactly
`max_retries` calls, sleeps only between attempts (`max_retries - 1` times),
and re-raises the final attempt's error; with a service succeeding on attempt
`K ≤ max_retries` (failing before), it returns that result after exactly `K`
calls and `K - 1` sleeps. -/
theorem invoke_with_retry_counts (ρ : Type) (maxR : Int) (hM : 1 ≤ maxR) :
    (∀ (m : Nat → List Char) (base : Rat),
      (invoke_with_retry (ρ := ρ) (fun i => .error (m i)) maxR base).result
          = .error (m maxR.toNat)
      ∧ (invoke_with_retry (ρ := ρ) (fun i => .error (m i)) maxR base).calls
          = maxR.toNat
      ∧ (invoke_with_retry (ρ := ρ) (fun i => .error (m i)) maxR base).sleeps.length
          = maxR.toNat - 1)
    ∧ (∀ (service : Nat → Except (List Char) ρ) (r : ρ) (K : Nat) (base : Rat),
        1 ≤ K → (K : Int) ≤ maxR → service K = .ok r →
        (∀ i, 1 ≤ i → i < K → ∃ e, service i = .error e) →
        (invoke_with_retry service maxR base).result = .ok (some r)
        ∧ (invoke_with_retry service maxR base).calls = K
        ∧ (invoke_with_retry service maxR base).sleeps.length = K - 1) := by
  have hMc : ((maxR.toNat : Nat) : Int) = maxR := Int.toNat_of_nonneg (by omega)
  obtain ⟨M, rfl⟩ : ∃ M : Nat, (M : Int) = maxR := ⟨maxR.toNat, hMc⟩
  have hMn : 1 ≤ M := by exact_mod_cast hM
  have hTN : ((M : Int)).toNat = M := Int.toNat_natCast M
  constructor
  · intro m base
    rw [invoke_with_retry, hTN,
      retryGo_fail_through (fun i => .error (m i)) m M base
        (fun _ => rfl) M 1 hMn (by omega)]
    exact ⟨rfl, rfl, by simp⟩
  · intro service r K base hK1 hKM hok hbelow
    have hKM' : K ≤ M := by exact_mod_cast hKM
    obtain ⟨h1, h2, h3⟩ := retryGo_success service M K base r hok hbelow
      M 1 (by omega) (by omega) hK1 hKM'
    rw [invoke_with_retry, hTN]
    refine ⟨h1, ?_, ?_⟩
    · rw [h2]; omega
    · rw [h3]

/-- Witness for C3 at `max_retries = 2`: a permanently failing service and a
service succeeding on attempt 2. -/
theorem invoke_with_retry_counts_witness :
    (1 : Int) ≤ 2
    ∧ (invoke_with_retry (ρ := Unit) (fun _ => Except.error "e".toList) 2 1).result
        = Except.error "e".toList
    ∧ (invoke_with_retry (ρ := Unit) (fun _ => Except.error "e".toList) 2 1).calls = 2
    ∧ (invoke_with_retry (ρ := Nat)
        (fun i => if i = 2 then Except.ok 0 else Except.error "x".toList) 2 1).result
        = Except.ok (some 0)
    ∧ (invoke_with_retry (ρ := Nat)
        (fun i => if i = 2 then Except.ok 0 else Except.error "x".toList) 2 1).calls
        = 2 := by
  have hall := (invoke_with_retry_counts Unit 2 (by decide)).1 (fun _ => "e".toList) 1
  have hsucc := (invoke_with_retry_counts Nat 2 (by decide)).2
    (fun i => if i = 2 then Except.ok 0 else Except.error "x".toList) 0 2 1
    (by decide) (by decide) rfl
    (by
      intro i h1 h2
      have : i = 1 := by omega
      subst this
      exact ⟨"x".toList, rfl⟩)
  exact ⟨by decide, hall.1, hall.2.1, hsucc.1, hsucc.2.1⟩

/-- C9: with `max_retries ≤ 0` the `range(1, max_retries + 1)` loop body never
runs, so `invoke_with_retry` returns Python `None` having made no service
call, slept never, and raised nothing. -/
theorem invoke_with_retry_nonpositive (ρ : Type)
    (service : Nat → Except (List Char) ρ) (maxR : Int) (base : Rat)
    (h : maxR ≤ 0) :
    invoke_with_retry service maxR base = ⟨.ok none, 0, []⟩ := by
  have h0 : maxR.toNat = 0 := by omega
  rw [invoke_with_retry, h0]
  rfl

/-- Witness for C9 at `max_retries = -2`. -/
theorem invoke_with_retry_nonpositive_witness :
    (-2 : Int) ≤ 0
    ∧ invoke_with_retry (ρ := Unit) (fun _ => Except.ok ()) (-2) 1
        = ⟨Except.ok none, 0, []⟩ :=
  ⟨by decide, invoke_with_retry_nonpositive Unit (fun _ => Except.ok ()) (-2) 1 (by decide)⟩

/-- C4 counterexample: the message `"quota exceeded, retry in 3s"` contains a
case-insensitive quota-exhaustion indicator together with a parseable delay
of 3 seconds, yet the code computes the linear back-off `base_delay * attempt`
(= 2 at attempt 1 with base 2), because the source's first indicator test
`"Quota exceeded" in emsg` is case-sensitive. -/
theorem retry_delay_claim_counterexample :
    specQuotaIndicator "quota exceeded, retry in 3s".toList = true
    ∧ parse_retry_delay_seconds "quota exceeded, retry in 3s".toList = 3
    ∧ quotaHit "quota exceeded, retry in 3s".toList = false
    ∧ computeDelay "quota exceeded, retry in 3s".toList 1 2 = 2
    ∧ (2 : Rat) ≠ 3 := by
  have hq : quotaHit "quota exceeded, retry in 3s".toList = false := by decide
  refine ⟨by decide, ?_, hq, ?_, by norm_num⟩
  · have hs : searchRetry "quota exceeded, retry in 3s".toList = some (['3'], []) := by
      decide
    rw [parse_retry_delay_seconds, hs]
    have hd : digitsVal ['3'] = 3 := by decide
    simp [numVal, hd, digitsVal]
  · rw [computeDelay, hq]
    norm_num

/-- C4 amended: for every failed non-final attempt `i`, the slept delay is —
if the message contains `"Quota exceeded"` (case-SENSITIVELY) or
`"rate limit"` (case-insensitively) — the `N` parsed from a case-insensitive
`retry in N s` pattern, 10 seconds when that pattern is absent; and for every
other message, `base_delay * i` (linear back-off). -/
theorem retry_delay_amended (ρ : Type) (m : Nat → List Char) (maxR : Int)
    (base : Rat) (hM : 1 ≤ maxR) :
    (invoke_with_retry (ρ := ρ) (fun i => .error (m i)) maxR base).sleeps
      = (List.range' 1 (maxR.toNat - 1)).map (fun i =>
          if quotaHit (m i) = true then
            (match searchRetry (m i) with
             | some (ds, fs) => numVal ds fs
             | none => 10)
          else base * (i : Rat)) := by
  have hMc : ((maxR.toNat : Nat) : Int) = maxR := Int.toNat_of_nonneg (by omega)
  obtain ⟨M, rfl⟩ : ∃ M : Nat, (M : Int) = maxR := ⟨maxR.toNat, hMc⟩
  have hMn : 1 ≤ M := by exact_mod_cast hM
  have hTN : ((M : Int)).toNat = M := Int.toNat_natCast M
  rw [invoke_with_retry, hTN,
    retryGo_fail_through (fun i => .error (m i)) m M base
      (fun _ => rfl) M 1 hMn (by omega)]
  show (List.range' 1 (M - 1)).map (fun i => computeDelay (m i) i base) = _
  apply List.map_congr_left
  intro i _
  rw [computeDelay, parse_retry_delay_seconds]

/-- Witness for the amended C4 at `max_retries = 3`: attempt 1 fails with a
parseable quota message (delay 4), attempt 2 with a generic message
(delay `base * 2 = 6`). -/
theorem retry_delay_amended_witness :
    (1 : Int) ≤ 3
    ∧ (invoke_with_retry (ρ := Unit)
        (fun i => Except.error (if i = 1
          then "Quota exceeded, retry in 4s".toList else "boom".toList)) 3 3).sleeps
      = [numVal ['4'] [], (3 : Rat) * ((2 : Nat) : Rat)]
    ∧ numVal ['4'] [] = 4
    ∧ (3 : Rat) * ((2 : Nat) : Rat) = 6 := by
  refine ⟨by decide, ?_, ?_, by norm_num⟩
  · rw [retry_delay_amended Unit
      (fun i => if i = 1 then "Quota exceeded, retry in 4s".toList else "boom".toList)
      3 3 (by decide)]
    rfl
  · have h4 : digitsVal ['4'] = 4 := by decide
    have h0 : digitsVal ([] : List Char) = 0 := by decide
    rw [numVal, h4, h0]
    norm_num

/-! ## Chunked corrector (C5) -/

theorem withIdxFrom_length (n : Nat) (l : List α) :
    (withIdxFrom n l).length = l.length := by
  induction l generalizing n with
  | nil => rfl
  | cons a as ih => simp [withIdxFrom, ih]

theorem withIdxFrom_getElem (n : Nat) (l : List α) (i : Nat) :
    (withIdxFrom n l)[i]? = l[i]?.map (fun a => (n + i, a)) := by
  induction l generalizing n i with
  | nil => simp [withIdxFrom]
  | cons a as ih =>
    cases i with
    | zero => simp [withIdxFrom]
    | succ k =>
      simp only [withIdxFrom, List.getElem?_cons_succ, ih]
      rw [show n + 1 + k = n + (k + 1) from by omega]

theorem chunkParts_length (cO : List Char → Except Unit TranscriptResponse)
    (rawText : List Char) (chunkSize : Nat) :
    (chunkParts cO rawText chunkSize).length
      = (split_text_into_chunks rawText chunkSize).length := by
  rw [chunkParts, List.length_map, withIdxFrom_length]

theorem chunkParts_getElem (cO : List Char → Except Unit TranscriptResponse)
    (rawText : List Char) (chunkSize : Nat) (i : Nat) :
    (chunkParts cO rawText chunkSize)[i]?
      = ((split_text_into_chunks rawText chunkSize)[i]?).map (fun c =>
          match cO c with
          | .ok resp => stripWS resp.transcript
          | .error _ => chunkFailMarker (1 + i) ++ c) := by
  rw [chunkParts, List.getElem?_map, withIdxFrom_getElem]
  cases (split_text_into_chunks rawText chunkSize)[i]? <;> rfl

/-- C5: when the text splits into at least two chunks and the correction of
chunk `j` fails permanently while every other chunk's correction succeeds,
`correct_transcript_chunked` does not abort: it still performs one model
round per chunk plus the title call, and returns a transcript that is the
blank-line join of the per-chunk parts, where part `i ≠ j` is chunk `i`'s
stripped corrected text and part `j` is the visible failure marker followed
by chunk `j`'s original text. -/
theorem chunk_failure_contained
    (cO : List Char → Except Unit TranscriptResponse)
    (tO : List Char → Except Unit (List Char))
    (rawText : List Char) (chunkSize j : Nat)
    (chunks : List (List Char))
    (hc : chunks = split_text_into_chunks rawText chunkSize)
    (hlen2 : 2 ≤ chunks.length)
    (hfail : ∀ c, chunks[j]? = some c → cO c = .error ())
    (_hok : ∀ i c, chunks[i]? = some c → i ≠ j → ∃ r, cO c = .ok r) :
    ∃ resp : TranscriptResponse,
      (correct_transcript_chunked cO tO rawText chunkSize).1 = .ok resp
      ∧ (correct_transcript_chunked cO tO rawText chunkSize).2 = chunks.length + 1
      ∧ resp.transcript = stripWS (joinSep nl2 (chunkParts cO rawText chunkSize))
      ∧ (chunkParts cO rawText chunkSize).length = chunks.length
      ∧ (∀ c, chunks[j]? = some c →
          (chunkParts cO rawText chunkSize)[j]? = some (chunkFailMarker (j + 1) ++ c))
      ∧ (∀ i c, chunks[i]? = some c → i ≠ j → ∀ r, cO c = .ok r →
          (chunkParts cO rawText chunkSize)[i]? = some (stripWS r.transcript)) := by
  have hne1 : ¬ (split_text_into_chunks rawText chunkSize).length = 1 := by
    rw [← hc]; omega
  refine ⟨⟨generate_title tO (stripWS (joinSep nl2 (chunkParts cO rawText chunkSize))),
    stripWS (joinSep nl2 (chunkParts cO rawText chunkSize))⟩, ?_, ?_, rfl, ?_, ?_, ?_⟩
  · simp only [correct_transcript_chunked]
    rw [if_neg hne1]
  · simp only [correct_transcript_chunked]
    rw [if_neg hne1, hc]
  · rw [chunkParts_length, hc]
  · intro c hjc
    rw [chunkParts_getElem, ← hc, hjc, Option.map_some']
    rw [hfail c hjc]
    rw [show 1 + j = j + 1 from by omega]
  · intro i c hic hne r hr
    rw [chunkParts_getElem, ← hc, hic, Option.map_some', hr]

/-- Witness for C5: text `"aa\n\nbb\n\ncc"` with `chunk_size = 4` splits into
three chunks; the oracle fails exactly on chunk 2 (index 1). -/
theorem chunk_failure_contained_witness :
    (["aa".toList, "bb".toList, "cc".toList]
        = split_text_into_chunks "aa\n\nbb\n\ncc".toList 4)
    ∧ (∃ resp : TranscriptResponse,
      (correct_transcript_chunked
          (fun s => if s = "bb".toList then .error ()
            else .ok ⟨"T".toList, "C".toList ++ s⟩)
          (fun _ => .ok "T".toList) "aa\n\nbb\n\ncc".toList 4).1 = .ok resp
      ∧ (correct_transcript_chunked
          (fun s => if s = "bb".toList then .error ()
            else .ok ⟨"T".toList, "C".toList ++ s⟩)
          (fun _ => .ok "T".toList) "aa\n\nbb\n\ncc".toList 4).2
          = ["aa".toList, "bb".toList, "cc".toList].length + 1
      ∧ resp.transcript = stripWS (joinSep nl2 (chunkParts
          (fun s => if s = "bb".toList then .error ()
            else .ok ⟨"T".toList, "C".toList ++ s⟩) "aa\n\nbb\n\ncc".toList 4))
      ∧ (chunkParts (fun s => if s = "bb".toList then .error ()
            else .ok ⟨"T".toList, "C".toList ++ s⟩) "aa\n\nbb\n\ncc".toList 4).length
          = ["aa".toList, "bb".toList, "cc".toList].length
      ∧ (∀ c, ["aa".toList, "bb".toList, "cc".toList][1]? = some c →
          (chunkParts (fun s => if s = "bb".toList then .error ()
            else .ok ⟨"T".toList, "C".toList ++ s⟩) "aa\n\nbb\n\ncc".toList 4)[1]?
            = some (chunkFailMarker (1 + 1) ++ c))
      ∧ (∀ i c, ["aa".toList, "bb".toList, "cc".toList][i]? = some c → i ≠ 1 →
          ∀ r, (if c = "bb".toList then Except.error ()
              else Except.ok (⟨"T".toList, "C".toList ++ c⟩ : TranscriptResponse))
                = .ok r →
          (chunkParts (fun s => if s = "bb".toList then .error ()
            else .ok ⟨"T".toList, "C".toList ++ s⟩) "aa\n\nbb\n\ncc".toList 4)[i]?
            = some (stripWS r.transcript))) := by
  refine ⟨by decide, ?_⟩
  exact chunk_failure_contained
    (fun s => if s = "bb".toList then .error ()
      else .ok ⟨"T".toList, "C".toList ++ s⟩)
    (fun _ => .ok "T".toList) "aa\n\nbb\n\ncc".toList 4 1
    ["aa".toList, "bb".toList, "cc".toList] (by decide) (by decide)
    (by
      intro c hc
      simp only [List.getElem?_cons_succ, List.getElem?_cons_zero] at hc
      cases hc
      rfl)
    (by
      intro i c hic hne
      have hi3 : i < 3 := by
        by_contra hge
        rw [List.getElem?_eq_none (by simp; omega)] at hic
        exact Option.noConfusion hic
      have : i = 0 ∨ i = 2 := by omega
      rcases this with rfl | rfl
      · simp only [List.getElem?_cons_zero] at hic
        cases hic
        exact ⟨⟨"T".toList, "C".toList ++ "aa".toList⟩, rfl⟩
      · simp only [List.getElem?_cons_succ, List.getElem?_cons_zero] at hic
        cases hic
        exact ⟨⟨"T".toList, "C".toList ++ "cc".toList⟩, rfl⟩)

/-! ## Batched paragraph summarizer (C6, C10) -/

theorem splitOnChar_no_sep (c : Char) (x : List Char) (hx : ∀ ch ∈ x, ch ≠ c) :
    splitOnChar c x = [x] := by
  induction x with
  | nil => rfl
  | cons a rest ih =>
    have ha : ¬ a = c := hx a (List.mem_cons_self _ _)
    rw [splitOnChar, if_neg ha, ih (fun ch hch => hx ch (List.mem_cons_of_mem _ hch))]

theorem splitOnChar_append_sep (c : Char) (x : List Char)
    (hx : ∀ ch ∈ x, ch ≠ c) (b : List Char) :
    splitOnChar c (x ++ c :: b) = x :: splitOnChar c b := by
  induction x with
  | nil => simp [splitOnChar]
  | cons a rest ih =>
    have ha : ¬ a = c := hx a (List.mem_cons_self _ _)
    rw [List.cons_append, splitOnChar, if_neg ha,
      ih (fun ch hch => hx ch (List.mem_cons_of_mem _ hch))]

theorem splitOnChar_joinSep (c : Char) :
    ∀ lines : List (List Char), lines ≠ [] →
      (∀ ln ∈ lines, ∀ ch ∈ ln, ch ≠ c) →
      splitOnChar c (joinSep [c] lines) = lines := by
  intro lines
  induction lines with
  | nil => intro h; exact absurd rfl h
  | cons x xs ih =>
    intro _ hfree
    cases xs with
    | nil =>
      exact splitOnChar_no_sep c x (hfree x (List.mem_cons_self _ _))
    | cons y ys =>
      show splitOnChar c (x ++ [c] ++ joinSep [c] (y :: ys)) = _
      rw [List.append_assoc, List.singleton_append,
        splitOnChar_append_sep c x (hfree x (List.mem_cons_self _ _)),
        ih (by simp) (fun ln hln => hfree ln (List.mem_cons_of_mem _ hln))]

theorem natDigitsGo_chars (P : Char → Prop)
    (hP : ∀ d, d < 10 → P (natDigitChar d)) :
    ∀ (fuel n : Nat) (acc : List Char), (∀ ch ∈ acc, P ch) →
      ∀ ch ∈ natDigitsGo fuel n acc, P ch := by
  intro fuel
  induction fuel with
  | zero => intro n acc hacc ch hch; exact hacc ch hch
  | succ f ih =>
    intro n acc hacc ch hch
    rw [natDigitsGo] at hch
    by_cases hn : n < 10
    · rw [if_pos hn] at hch
      rcases List.mem_cons.mp hch with rfl | hch
      · exact hP n hn
      · exact hacc ch hch
    · rw [if_neg hn] at hch
      refine ih (n / 10) (natDigitChar (n % 10) :: acc) ?_ ch hch
      intro d hd
      rcases List.mem_cons.mp hd with rfl | hd
      · exact hP (n % 10) (Nat.mod_lt n (by omega))
      · exact hacc d hd

theorem natDigits_ne_nl (n : Nat) : ∀ ch ∈ natDigits n, ch ≠ '\n' := by
  refine natDigitsGo_chars (fun ch => ch ≠ '\n') ?_ (n + 1) n [] (by simp)
  have h : ∀ d, d < 10 → natDigitChar d ≠ '\n' := by decide
  exact h

theorem failedBullet_ne_nl (n : Nat) : ∀ ch ∈ failedBullet n, ch ≠ '\n' := by
  intro ch hch
  rw [failedBullet] at hch
  rcases List.mem_append.mp hch with hch | hch
  · rcases List.mem_append.mp hch with hch | hch
    · exact (show ∀ d ∈ "- P".toList, d ≠ '\n' from by decide) ch hch
    · exact natDigits_ne_nl n ch hch
  · exact (show ∀ d ∈ ": (summary failed)".toList, d ≠ '\n' from by decide) ch hch

theorem failedBullet_starts (n : Nat) :
    List.isPrefixOf ("- P".toList ++ natDigits n ++ [':']) (failedBullet n)
      = true := by
  rw [List.isPrefixOf_iff_prefix]
  refine ⟨" (summary failed)".toList, ?_⟩
  rw [failedBullet]
  simp [List.append_assoc]

theorem processRespLines_good :
    ∀ (first : Nat) (lines : List (List Char)),
      (∀ i (h : i < lines.length), goodLine (first + i) (lines.get ⟨i, h⟩)) →
      processRespLines lines = lines := by
  intro first lines
  induction lines generalizing first with
  | nil => intro _; rfl
  | cons ln rest ih =>
    intro hgood
    have h0 : goodLine first ln := hgood 0 (by simp)
    obtain ⟨hstrip, _, hpre⟩ := h0
    obtain ⟨t, ht⟩ := List.isPrefixOf_iff_prefix.mp hpre
    have hhead : ln.head? = some '-' := by
      rw [← ht]
      rfl
    have hne : ln.isEmpty = false := by
      cases ln
      · exact Option.noConfusion hhead
      · rfl
    have hrest : processRespLines rest = rest := by
      apply ih (first + 1)
      intro i h
      have hh := hgood (i + 1) (by simpa using h)
      simp only [List.get_cons_succ] at hh
      rw [show first + (i + 1) = first + 1 + i from by omega] at hh
      exact hh
    simp only [processRespLines]
    rw [hstrip, hne]
    simp only [Bool.false_eq_true, if_false]
    rw [if_pos hhead, hrest]

theorem sliceGo_fuel_irrel (n : Nat) (hn : 1 ≤ n) :
    ∀ (f1 f2 : Nat) (l : List α), l.length ≤ f1 → l.length ≤ f2 →
      sliceGo n f1 l = sliceGo n f2 l := by
  intro f1
  induction f1 with
  | zero =>
    intro f2 l h1 _
    have : l = [] := List.length_eq_zero.mp (Nat.le_zero.mp h1)
    subst this
    rw [sliceGo_nil, sliceGo_nil]
  | succ f ih =>
    intro f2 l h1 h2
    cases l with
    | nil => rw [sliceGo_nil, sliceGo_nil]
    | cons a as =>
      cases f2 with
      | zero => simp at h2
      | succ f2' =>
        show (a :: as).take n :: sliceGo n f ((a :: as).drop n)
            = (a :: as).take n :: sliceGo n f2' ((a :: as).drop n)
        congr 1
        apply ih
        · simp only [List.length_drop, List.length_cons] at h1 ⊢
          omega
        · simp only [List.length_drop, List.length_cons] at h2 ⊢
          omega

theorem sliceEvery_unfold (n : Nat) (hn : 1 ≤ n) (l : List α) :
    sliceEvery n l =
      if l.isEmpty then [] else l.take n :: sliceEvery n (l.drop n) := by
  cases l with
  | nil => rfl
  | cons a as =>
    show (a :: as).take n :: sliceGo n as.length ((a :: as).drop n) = _
    rw [show (a :: as).isEmpty = false from rfl]
    simp only [Bool.false_eq_true, if_false]
    congr 1
    rw [sliceEvery]
    apply sliceGo_fuel_irrel n hn
    · simp only [List.length_drop, List.length_cons]
      omega
    · exact Nat.le_refl _

theorem sliceEvery_batches_85 (blocks : List α) (h : blocks.length = 85) :
    sliceEvery 40 blocks =
      [blocks.take 40, (blocks.drop 40).take 40, (blocks.drop 40).drop 40] := by
  have h1 : blocks.isEmpty = false := by
    cases blocks
    · simp at h
    · rfl
  have hd1 : (blocks.drop 40).length = 45 := by rw [List.length_drop, h]
  have h2 : (blocks.drop 40).isEmpty = false := by
    cases hcase : blocks.drop 40
    · rw [hcase] at hd1; simp at hd1
    · rfl
  have hd2 : ((blocks.drop 40).drop 40).length = 5 := by rw [List.length_drop, hd1]
  have h3 : ((blocks.drop 40).drop 40).isEmpty = false := by
    cases hcase : (blocks.drop 40).drop 40
    · rw [hcase] at hd2; simp at hd2
    · rfl
  have h4 : (((blocks.drop 40).drop 40).drop 40) = [] := by
    apply List.length_eq_zero.mp
    rw [List.length_drop, hd2]
  rw [sliceEvery_unfold 40 (by omega), h1]
  simp only [Bool.false_eq_true, if_false]
  rw [sliceEvery_unfold 40 (by omega), h2]
  simp only [Bool.false_eq_true, if_false]
  rw [sliceEvery_unfold 40 (by omega), h3]
  simp only [Bool.false_eq_true, if_false]
  rw [h4]
  have h5 : ((blocks.drop 40).drop 40).take 40 = (blocks.drop 40).drop 40 := by
    apply List.take_of_length_le
    rw [hd2]
    omega
  rw [h5, show sliceEvery 40 ([] : List α) = [] from rfl]

theorem indexed_append (P : Nat → List Char → Prop) (off : Nat)
    (xs ys : List (List Char))
    (hxs : ∀ i (h : i < xs.length), P (off + i) (xs.get ⟨i, h⟩))
    (hys : ∀ i (h : i < ys.length), P (off + xs.length + i) (ys.get ⟨i, h⟩)) :
    ∀ i (h : i < (xs ++ ys).length), P (off + i) ((xs ++ ys).get ⟨i, h⟩) := by
  intro i h
  by_cases hi : i < xs.length
  · rw [List.get_eq_getElem, List.getElem_append_left hi]
    have := hxs i hi
    rw [List.get_eq_getElem] at this
    exact this
  · have hge : xs.length ≤ i := by omega
    rw [List.get_eq_getElem, List.getElem_append_right hge]
    have hlt : i - xs.length < ys.length := by
      rw [List.length_append] at h
      omega
    have := hys (i - xs.length) hlt
    rw [List.get_eq_getElem] at this
    rw [show off + xs.length + (i - xs.length) = off + i from by omega] at this
    exact this

theorem sumGo_nil (pO : Nat → List (List Char) → Except Unit (List Char))
    (start : Nat) : sumGo pO start [] = ([], []) := rfl

theorem sumGo_cons_ok (pO : Nat → List (List Char) → Except Unit (List Char))
    (start : Nat) (batch : List (List Char)) (rest : List (List (List Char)))
    (content : List Char) (h : pO (start + 1) batch = .ok content) :
    sumGo pO start (batch :: rest)
      = (processRespLines (splitOnChar '\n' (stripWS content))
            ++ (sumGo pO (start + batch.length) rest).1,
         batch.length :: (sumGo pO (start + batch.length) rest).2) := by
  simp only [sumGo]
  rw [h]

theorem sumGo_cons_err (pO : Nat → List (List Char) → Except Unit (List Char))
    (start : Nat) (batch : List (List Char)) (rest : List (List (List Char)))
    (h : pO (start + 1) batch = .error ()) :
    sumGo pO start (batch :: rest)
      = ((List.range' (start + 1) batch.length).map failedBullet
            ++ (sumGo pO (start + batch.length) rest).1,
         batch.length :: (sumGo pO (start + batch.length) rest).2) := by
  simp only [sumGo]
  rw [h]

theorem processResponse_good (first : Nat) (batch : List (List Char))
    (content : List Char) (hg : goodResponse first batch content)
    (hne : batch ≠ []) :
    ∃ lines, processRespLines (splitOnChar '\n' (stripWS content)) = lines
      ∧ lines.length = batch.length
      ∧ ∀ i (h : i < lines.length), goodLine (first + i) (lines.get ⟨i, h⟩) := by
  obtain ⟨lines, hjoin, hstrip, hlen, hgood⟩ := hg
  refine ⟨lines, ?_, hlen, hgood⟩
  rw [hstrip, hjoin]
  rw [splitOnChar_joinSep '\n' lines ?_ ?_]
  · exact processRespLines_good first lines hgood
  · intro h0
    rw [h0] at hlen
    simp only [List.length_nil] at hlen
    exact hne (List.length_eq_zero.mp hlen.symm)
  · intro ln hln
    obtain ⟨⟨i, hi⟩, rfl⟩ := List.mem_iff_get.mp hln
    exact (hgood i hi).2.1

theorem get_map_range' (f : Nat → List Char) :
    ∀ (n s i : Nat) (h : i < ((List.range' s n).map f).length),
      ((List.range' s n).map f).get ⟨i, h⟩ = f (s + i) := by
  intro n
  induction n with
  | zero => intro s i h; simp at h
  | succ k ih =>
    intro s i h
    cases i with
    | zero => rfl
    | succ j =>
      have hj : j < ((List.range' (s + 1) k).map f).length := by
        simp only [List.length_map, List.length_range'] at h ⊢
        omega
      show ((List.range' (s + 1) k).map f).get ⟨j, hj⟩ = _
      rw [ih (s + 1) j hj]
      rw [show s + 1 + j = s + (j + 1) from by omega]

/-- C6: for a corrected text with exactly 85 non-empty paragraphs and batch
size 40, `summarize_paragraphs` issues exactly 3 batched requests covering
40, 40 and 5 paragraphs.  When every response is in the demanded format, the
output is the header plus exactly 85 bullet lines, the `i`-th (1-based)
prefixed `- P<i>:`.  When the second batch's request fails while the other
two answer well-formed, all 3 requests are still issued and 85 bullets are
still produced — bullets 41–80 being the placeholders
`- P<i>: (summary failed)` — so a failed batch never fails the stage. -/
theorem summarize_paragraphs_batches (corrected : List Char)
    (blocks : List (List Char)) (hb : blocks = paragraphs corrected)
    (h85 : blocks.length = 85)
    (pOA pOB : Nat → List (List Char) → Except Unit (List Char))
    (cA1 cA2 cA3 cB1 cB3 : List Char)
    (hA1 : pOA 1 (blocks.take 40) = .ok cA1)
    (hA1g : goodResponse 1 (blocks.take 40) cA1)
    (hA2 : pOA 41 ((blocks.drop 40).take 40) = .ok cA2)
    (hA2g : goodResponse 41 ((blocks.drop 40).take 40) cA2)
    (hA3 : pOA 81 ((blocks.drop 40).drop 40) = .ok cA3)
    (hA3g : goodResponse 81 ((blocks.drop 40).drop 40) cA3)
    (hB1 : pOB 1 (blocks.take 40) = .ok cB1)
    (hB1g : goodResponse 1 (blocks.take 40) cB1)
    (hB2 : pOB 41 ((blocks.drop 40).take 40) = .error ())
    (hB3 : pOB 81 ((blocks.drop 40).drop 40) = .ok cB3)
    (hB3g : goodResponse 81 ((blocks.drop 40).drop 40) cB3) :
    (∃ bullets : List (List Char),
      (summarize_paragraphs pOA corrected 40).2 = [40, 40, 5]
      ∧ (summarize_paragraphs pOA corrected 40).1
          = "Paragraph Summaries:\n".toList ++ joinSep ['\n'] bullets
      ∧ bullets.length = 85
      ∧ (∀ i (h : i < bullets.length),
          List.isPrefixOf ("- P".toList ++ natDigits (i + 1) ++ [':'])
            (bullets.get ⟨i, h⟩) = true))
    ∧ (∃ bullets : List (List Char),
      (summarize_paragraphs pOB corrected 40).2 = [40, 40, 5]
      ∧ (summarize_paragraphs pOB corrected 40).1
          = "Paragraph Summaries:\n".toList ++ joinSep ['\n'] bullets
      ∧ bullets.length = 85
      ∧ (∀ i (h : i < bullets.length), 40 ≤ i → i < 80 →
          bullets.get ⟨i, h⟩ = failedBullet (i + 1))
      ∧ (∀ i (h : i < bullets.length),
          List.isPrefixOf ("- P".toList ++ natDigits (i + 1) ++ [':'])
            (bullets.get ⟨i, h⟩) = true)) := by
  subst hb
  have hE : (paragraphs corrected).isEmpty = false := by
    cases hcase : paragraphs corrected
    · rw [hcase] at h85
      simp at h85
    · rfl
  have hbat := sliceEvery_batches_85 (paragraphs corrected) h85
  have hlen1 : ((paragraphs corrected).take 40).length = 40 := by
    rw [List.length_take]
    omega
  have hlen2 : (((paragraphs corrected).drop 40).take 40).length = 40 := by
    rw [List.length_take, List.length_drop]
    omega
  have hlen3 : (((paragraphs corrected).drop 40).drop 40).length = 5 := by
    rw [List.length_drop, List.length_drop]
    omega
  have hne1 : (paragraphs corrected).take 40 ≠ [] := by
    intro h0
    rw [h0] at hlen1
    simp at hlen1
  have hne2 : ((paragraphs corrected).drop 40).take 40 ≠ [] := by
    intro h0
    rw [h0] at hlen2
    simp at hlen2
  have hne3 : ((paragraphs corrected).drop 40).drop 40 ≠ [] := by
    intro h0
    rw [h0] at hlen3
    simp at hlen3
  constructor
  · obtain ⟨l1, hp1, hl1, hg1⟩ := processResponse_good 1 _ cA1 hA1g hne1
    obtain ⟨l2, hp2, hl2, hg2⟩ := processResponse_good 41 _ cA2 hA2g hne2
    obtain ⟨l3, hp3, hl3, hg3⟩ := processResponse_good 81 _ cA3 hA3g hne3
    have hL1 : l1.length = 40 := by rw [hl1, hlen1]
    have hL2 : l2.length = 40 := by rw [hl2, hlen2]
    have hL3 : l3.length = 5 := by rw [hl3, hlen3]
    have hcomp : sumGo pOA 0 [(paragraphs corrected).take 40,
          ((paragraphs corrected).drop 40).take 40,
          ((paragraphs corrected).drop 40).drop 40]
        = (l1 ++ (l2 ++ l3), [40, 40, 5]) := by
      rw [sumGo_cons_ok pOA 0 _ _ cA1 (by simpa using hA1), hp1, hlen1]
      rw [show (0 : Nat) + 40 = 40 from rfl]
      rw [sumGo_cons_ok pOA 40 _ _ cA2 (by simpa using hA2), hp2, hlen2]
      rw [show (40 : Nat) + 40 = 80 from rfl]
      rw [sumGo_cons_ok pOA 80 _ _ cA3 (by simpa using hA3), hp3, hlen3]
      rw [sumGo_nil]
      simp
    refine ⟨l1 ++ (l2 ++ l3), ?_, ?_, ?_, ?_⟩
    · simp only [summarize_paragraphs]
      rw [hE]
      simp only [Bool.false_eq_true, if_false]
      rw [hbat, hcomp]
    · simp only [summarize_paragraphs]
      rw [hE]
      simp only [Bool.false_eq_true, if_false]
      rw [hbat, hcomp]
    · simp only [List.length_append]
      rw [hL1, hL2, hL3]
    · intro i h
      have hmain := indexed_append
        (fun n ln => List.isPrefixOf ("- P".toList ++ natDigits (n + 1) ++ [':']) ln = true)
        0 l1 (l2 ++ l3)
        (by
          intro i h
          show List.isPrefixOf ("- P".toList ++ natDigits (0 + i + 1) ++ [':'])
            (l1.get ⟨i, h⟩) = true
          rw [show (0 : Nat) + i + 1 = 1 + i from by omega]
          exact (hg1 i h).2.2)
        (indexed_append
          (fun n ln => List.isPrefixOf ("- P".toList ++ natDigits (n + 1) ++ [':']) ln = true)
          (0 + l1.length) l2 l3
          (by
            intro i h
            show List.isPrefixOf ("- P".toList ++ natDigits (0 + l1.length + i + 1) ++ [':'])
              (l2.get ⟨i, h⟩) = true
            rw [hL1]
            rw [show (0 : Nat) + 40 + i + 1 = 41 + i from by omega]
            exact (hg2 i h).2.2)
          (by
            intro i h
            show List.isPrefixOf
              ("- P".toList ++ natDigits (0 + l1.length + l2.length + i + 1) ++ [':'])
              (l3.get ⟨i, h⟩) = true
            rw [hL1, hL2]
            rw [show (0 : Nat) + 40 + 40 + i + 1 = 81 + i from by omega]
            exact (hg3 i h).2.2))
        i h
      simpa using hmain
  · obtain ⟨l1, hp1, hl1, hg1⟩ := processResponse_good 1 _ cB1 hB1g hne1
    obtain ⟨l3, hp3, hl3, hg3⟩ := processResponse_good 81 _ cB3 hB3g hne3
    have hL1 : l1.length = 40 := by rw [hl1, hlen1]
    have hL3 : l3.length = 5 := by rw [hl3, hlen3]
    have hLm : ((List.range' 41 40).map failedBullet).length = 40 := by
      rw [List.length_map, List.length_range']
    have hcomp : sumGo pOB 0 [(paragraphs corrected).take 40,
          ((paragraphs corrected).drop 40).take 40,
          ((paragraphs corrected).drop 40).drop 40]
        = (l1 ++ ((List.range' 41 40).map failedBullet ++ l3), [40, 40, 5]) := by
      rw [sumGo_cons_ok pOB 0 _ _ cB1 (by simpa using hB1), hp1, hlen1]
      rw [show (0 : Nat) + 40 = 40 from rfl]
      rw [sumGo_cons_err pOB 40 _ _ (by simpa using hB2), hlen2]
      rw [show (40 : Nat) + 1 = 41 from rfl]
      rw [show (40 : Nat) + 40 = 80 from rfl]
      rw [sumGo_cons_ok pOB 80 _ _ cB3 (by simpa using hB3), hp3, hlen3]
      rw [sumGo_nil]
      simp
    refine ⟨l1 ++ ((List.range' 41 40).map failedBullet ++ l3), ?_, ?_, ?_, ?_, ?_⟩
    · simp only [summarize_paragraphs]
      rw [hE]
      simp only [Bool.false_eq_true, if_false]
      rw [hbat, hcomp]
    · simp only [summarize_paragraphs]
      rw [hE]
      simp only [Bool.false_eq_true, if_false]
      rw [hbat, hcomp]
    · simp only [List.length_append]
      rw [hL1, hL3, hLm]
    · intro i h h40 h80
      have hi1 : l1.length ≤ i := by omega
      rw [List.get_eq_getElem, List.getElem_append_right hi1]
      have hi2 : i - l1.length < ((List.range' 41 40).map failedBullet).length := by
        rw [hLm, hL1]
        omega
      rw [List.getElem_append_left hi2]
      have := get_map_range' failedBullet 40 41 (i - l1.length) hi2
      rw [List.get_eq_getElem] at this
      rw [this]
      rw [show 41 + (i - l1.length) = i + 1 from by rw [hL1]; omega]
    · intro i h
      have hmain := indexed_append
        (fun n ln => List.isPrefixOf ("- P".toList ++ natDigits (n + 1) ++ [':']) ln = true)
        0 l1 ((List.range' 41 40).map failedBullet ++ l3)
        (by
          intro i h
          show List.isPrefixOf ("- P".toList ++ natDigits (0 + i + 1) ++ [':'])
            (l1.get ⟨i, h⟩) = true
          rw [show (0 : Nat) + i + 1 = 1 + i from by omega]
          exact (hg1 i h).2.2)
        (indexed_append
          (fun n ln => List.isPrefixOf ("- P".toList ++ natDigits (n + 1) ++ [':']) ln = true)
          (0 + l1.length) ((List.range' 41 40).map failedBullet) l3
          (by
            intro i h
            show List.isPrefixOf ("- P".toList ++ natDigits (0 + l1.length + i + 1) ++ [':'])
              (((List.range' 41 40).map failedBullet).get ⟨i, h⟩) = true
            rw [get_map_range' failedBullet 40 41 i h, hL1]
            rw [show (0 : Nat) + 40 + i + 1 = 41 + i from by omega]
            exact failedBullet_starts (41 + i)
          )
          (by
            intro i h
            show List.isPrefixOf
              ("- P".toList ++ natDigits
                (0 + l1.length + ((List.range' 41 40).map failedBullet).length + i + 1)
                ++ [':'])
              (l3.get ⟨i, h⟩) = true
            rw [hL1, hLm]
            rw [show (0 : Nat) + 40 + 40 + i + 1 = 81 + i from by omega]
            exact (hg3 i h).2.2))
        i h
      simpa using hmain

set_option maxRecDepth 4000 in
/-- Witness for C6 at the concrete 85-paragraph text `wCorrected`, with the
all-good oracle `pOWA` and the batch-2-failing oracle `pOWB`. -/
theorem summarize_paragraphs_batches_witness :
    (paragraphs wCorrected).length = 85
    ∧ ((∃ bullets : List (List Char),
      (summarize_paragraphs pOWA wCorrected 40).2 = [40, 40, 5]
      ∧ (summarize_paragraphs pOWA wCorrected 40).1
          = "Paragraph Summaries:\n".toList ++ joinSep ['\n'] bullets
      ∧ bullets.length = 85
      ∧ (∀ i (h : i < bullets.length),
          List.isPrefixOf ("- P".toList ++ natDigits (i + 1) ++ [':'])
            (bullets.get ⟨i, h⟩) = true))
    ∧ (∃ bullets : List (List Char),
      (summarize_paragraphs pOWB wCorrected 40).2 = [40, 40, 5]
      ∧ (summarize_paragraphs pOWB wCorrected 40).1
          = "Paragraph Summaries:\n".toList ++ joinSep ['\n'] bullets
      ∧ bullets.length = 85
      ∧ (∀ i (h : i < bullets.length), 40 ≤ i → i < 80 →
          bullets.get ⟨i, h⟩ = failedBullet (i + 1))
      ∧ (∀ i (h : i < bullets.length),
          List.isPrefixOf ("- P".toList ++ natDigits (i + 1) ++ [':'])
            (bullets.get ⟨i, h⟩) = true))) := by
  refine ⟨by decide, ?_⟩
  exact summarize_paragraphs_batches wCorrected (paragraphs wCorrected) rfl (by decide)
    pOWA pOWB (canonResp 1 40) (canonResp 41 40) (canonResp 81 5)
    (canonResp 1 40) (canonResp 81 5)
    rfl
    ⟨(List.range' 1 40).map (fun n => "- P".toList ++ natDigits n ++ ": ok".toList),
      rfl, by decide, by decide, by decide⟩
    rfl
    ⟨(List.range' 41 40).map (fun n => "- P".toList ++ natDigits n ++ ": ok".toList),
      rfl, by decide, by decide, by decide⟩
    rfl
    ⟨(List.range' 81 5).map (fun n => "- P".toList ++ natDigits n ++ ": ok".toList),
      rfl, by decide, by decide, by decide⟩
    rfl
    ⟨(List.range' 1 40).map (fun n => "- P".toList ++ natDigits n ++ ": ok".toList),
      rfl, by decide, by decide, by decide⟩
    rfl
    rfl
    ⟨(List.range' 81 5).map (fun n => "- P".toList ++ natDigits n ++ ": ok".toList),
      rfl, by decide, by decide, by decide⟩

/-! ## Whitespace-only input (C10) -/

theorem srGo_all_ws :
    ∀ (l acc : List Char) (p : Nat),
      (∀ c ∈ l, isSpaceC c = true) → (∀ c ∈ acc, isSpaceC c = true) →
      ∀ seg ∈ srGo l acc p, ∀ c ∈ seg, isSpaceC c = true := by
  intro l
  induction l with
  | nil =>
    intro acc p _ hacc seg hseg c hc
    rw [srGo] at hseg
    by_cases h2 : 2 ≤ p
    · rw [if_pos h2] at hseg
      rcases List.mem_cons.mp hseg with rfl | hseg
      · exact hacc c (List.mem_reverse.mp hc)
      · rcases List.mem_cons.mp hseg with rfl | hseg
        · simp at hc
        · simp at hseg
    · rw [if_neg h2] at hseg
      rcases List.mem_cons.mp hseg with rfl | hseg
      · rcases List.mem_append.mp hc with hc | hc
        · exact hacc c (List.mem_reverse.mp hc)
        · have := List.eq_of_mem_replicate hc
          subst this
          rfl
      · simp at hseg
  | cons a rest ih =>
    intro acc p hl hacc seg hseg c hc
    rw [srGo] at hseg
    by_cases ha : a = '\n'
    · rw [if_pos ha] at hseg
      exact ih acc (p + 1) (fun d hd => hl d (List.mem_cons_of_mem _ hd)) hacc
        seg hseg c hc
    · rw [if_neg ha] at hseg
      by_cases h2 : 2 ≤ p
      · rw [if_pos h2] at hseg
        rcases List.mem_cons.mp hseg with rfl | hseg
        · exact hacc c (List.mem_reverse.mp hc)
        · refine ih [a] 0 (fun d hd => hl d (List.mem_cons_of_mem _ hd)) ?_ seg hseg c hc
          intro d hd
          rcases List.mem_cons.mp hd with rfl | hd
          · exact hl d (List.mem_cons_self _ _)
          · simp at hd
      · rw [if_neg h2] at hseg
        refine ih (a :: (List.replicate p '\n' ++ acc)) 0
          (fun d hd => hl d (List.mem_cons_of_mem _ hd)) ?_ seg hseg c hc
        intro d hd
        rcases List.mem_cons.mp hd with rfl | hd
        · exact hl d (List.mem_cons_self _ _)
        · rcases List.mem_append.mp hd with hd | hd
          · have := List.eq_of_mem_replicate hd
            subst this
            rfl
          · exact hacc d hd

theorem stripWS_all_ws (l : List Char) (h : ∀ c ∈ l, isSpaceC c = true) :
    stripWS l = [] := by
  have hdrop : l.dropWhile isSpaceC = [] := by
    rw [List.dropWhile_eq_nil_iff]
    intro x hx
    rw [h x hx]
  rw [stripWS, hdrop]
  rfl

theorem paragraphs_all_ws (text : List Char)
    (h : ∀ c ∈ text, isSpaceC c = true) : paragraphs text = [] := by
  rw [paragraphs]
  apply List.filter_eq_nil_iff.mpr
  intro x hx
  obtain ⟨seg, hseg, rfl⟩ := List.mem_map.mp hx
  have hsw : stripWS seg = [] :=
    stripWS_all_ws seg (srGo_all_ws text [] 0 h (by simp) seg hseg)
  simp [hsw]

/-- C10: for a corrected text that is empty or consists only of whitespace,
`summarize_paragraphs` returns exactly `"Paragraph Summaries:\n- (No content)"`
and issues zero requests to the text-generation service. -/
theorem summarize_paragraphs_no_content
    (pO : Nat → List (List Char) → Except Unit (List Char))
    (corrected : List Char) (batchSize : Nat)
    (h : ∀ c ∈ corrected, isSpaceC c = true) :
    summarize_paragraphs pO corrected batchSize
      = ("Paragraph Summaries:\n- (No content)".toList, []) := by
  have hp := paragraphs_all_ws corrected h
  simp only [summarize_paragraphs]
  rw [hp]
  rfl

/-- Witness for C10 at the whitespace-only text `" \n\n\t"`. -/
theorem summarize_paragraphs_no_content_witness :
    (∀ c ∈ " \n\n\t".toList, isSpaceC c = true)
    ∧ summarize_paragraphs pOWA " \n\n\t".toList 40
        = ("Paragraph Summaries:\n- (No content)".toList, []) :=
  ⟨by decide, summarize_paragraphs_no_content pOWA " \n\n\t".toList 40 (by decide)⟩

/-! ## Orchestrator (C7, C1) -/

theorem fsRead_write_self (fs : FS) (p c : List Char) :
    fsRead (fsWrite fs p c) p = some c := by
  simp [fsRead, fsWrite, List.find?]

theorem fsRead_write_other (fs : FS) (p c q : List Char) (h : ¬ p = q) :
    fsRead (fsWrite fs p c) q = fsRead fs q := by
  simp [fsRead, fsWrite, List.find?, h]

theorem fsRead_mkdir (fs : FS) (d p : List Char) :
    fsRead (fsMkdir fs d) p = fsRead fs p := by
  rw [fsMkdir]
  by_cases h : d ∈ fs.dirs
  · rw [if_pos h]
  · rw [if_neg h]
    rw [fsRead, fsRead]

theorem title_txt_mkdir (fs : FS) (d videoDir : List Char) :
    title_txt_in_dir (fsMkdir fs d) videoDir = title_txt_in_dir fs videoDir := by
  rw [fsMkdir]
  by_cases h : d ∈ fs.dirs
  · rw [if_pos h]
  · rw [if_neg h]
    rw [title_txt_in_dir, title_txt_in_dir]

theorem title_txt_write_mono (fs : FS) (p c videoDir : List Char)
    (h : title_txt_in_dir fs videoDir = true) :
    title_txt_in_dir (fsWrite fs p c) videoDir = true := by
  rw [title_txt_in_dir] at h ⊢
  rw [fsWrite]
  simp only [List.any_cons]
  rw [h]
  simp

theorem title_txt_write_title (fs : FS) (videoDir safe content : List Char) :
    title_txt_in_dir
      (fsWrite fs (videoDir ++ '/' :: "title_".toList ++ safe ++ ".txt".toList)
        content) videoDir = true := by
  rw [title_txt_in_dir, fsWrite]
  simp only [List.any_cons, Bool.or_eq_true]
  left
  simp only [Bool.and_eq_true, decide_eq_true_eq]
  refine ⟨⟨?_, ?_⟩, ?_⟩
  · rw [List.isPrefixOf_iff_prefix]
    refine ⟨safe ++ ".txt".toList, ?_⟩
    simp [List.append_assoc]
  · rw [List.isSuffixOf_iff_suffix]
    exact ⟨videoDir ++ '/' :: "title_".toList ++ safe, by simp [List.append_assoc]⟩
  · simp only [List.length_append, List.length_cons]
    have h1 : "title_".toList.length = 6 := by decide
    have h2 : ".txt".toList.length = 4 := by decide
    omega

theorem ne_of_head (a b : List Char) (x y : Char) (hx : a.head? = some x)
    (hy : b.head? = some y) (hxy : ¬ x = y) : ¬ a = b := by
  intro h
  rw [h, hy] at hx
  exact hxy (Option.some.inj hx).symm

theorem append_cons_ne (pre : List Char) (s : Char) (a b : List Char)
    (hne : ¬ a = b) : ¬ pre ++ s :: a = pre ++ s :: b := by
  intro h
  have := List.append_cancel_left h
  exact hne (List.cons.inj this).2

/-- C7: a URL from which no 11-character id can be extracted makes
`process_video` raise the input error before creating any directory under
the base output directory and before writing any artifact: the filesystem is
returned unchanged and no service interaction happens. -/
theorem process_video_bad_url (o : Oracles) (url : List Char) (force : Bool)
    (baseDir : List Char) (chunkSize : Nat) (dp ds : Bool) (batchSize : Nat)
    (fs : FS) (h : extract_video_id url = none) :
    process_video o url force baseDir chunkSize dp ds batchSize fs
      = (fs, .badUrl, ⟨0, 0, 0⟩) := by
  rw [process_video, h]

/-- Witness for C7 at the id-free URL `"http://example.com"`, starting from
a filesystem with one unrelated directory and file. -/
theorem process_video_bad_url_witness :
    extract_video_id "http://example.com".toList = none
    ∧ process_video wOracles "http://example.com".toList false
        "data/transcripts".toList 12000 false false 40
        ⟨["d".toList], [("d/f".toList, "x".toList)]⟩
      = (⟨["d".toList], [("d/f".toList, "x".toList)]⟩, .badUrl, ⟨0, 0, 0⟩) :=
  ⟨by decide,
   process_video_bad_url wOracles "http://example.com".toList false
     "data/transcripts".toList 12000 false false 40
     ⟨["d".toList], [("d/f".toList, "x".toList)]⟩ (by decide)⟩

theorem correct_chunked_total
    (cO : List Char → Except Unit TranscriptResponse)
    (tO : List Char → Except Unit (List Char))
    (raw : List Char) (chunkSize : Nat)
    (hco : ∀ s, ∃ r, cO s = .ok r) :
    ∃ resp calls,
      correct_transcript_chunked cO tO raw chunkSize = (.ok resp, calls) := by
  simp only [correct_transcript_chunked]
  by_cases h1 : (split_text_into_chunks raw chunkSize).length = 1
  · rw [if_pos h1]
    obtain ⟨r, hr⟩ := hco raw
    exact ⟨r, 1, by rw [hr]⟩
  · rw [if_neg h1]
    exact ⟨_, _, rfl⟩

theorem pvParStage_read (o : Oracles) (force dp : Bool) (batchSize : Nat)
    (parPath corrected : List Char) (fs : FS) (q : List Char)
    (h : ¬ parPath = q) :
    fsRead (pvParStage o force dp batchSize parPath corrected fs).1 q
      = fsRead fs q := by
  rw [pvParStage]
  by_cases h1 : dp = true
  · rw [if_pos h1]
  · rw [if_neg h1]
    by_cases h2 : (!force && fsIsFile fs parPath) = true
    · rw [if_pos h2]
    · rw [if_neg h2]
      exact fsRead_write_other fs parPath _ q h

theorem pvSumStage_read (o : Oracles) (force ds : Bool)
    (summaryPath corrected : List Char) (fs : FS) (q : List Char)
    (h : ¬ summaryPath = q) :
    fsRead (pvSumStage o force ds summaryPath corrected fs).1 q
      = fsRead fs q := by
  rw [pvSumStage]
  by_cases h1 : ds = true
  · rw [if_pos h1]
  · rw [if_neg h1]
    by_cases h2 : (!force && fsIsFile fs summaryPath) = true
    · rw [if_pos h2]
    · rw [if_neg h2]
      cases hs : o.summary corrected with
      | ok s => exact fsRead_write_other fs summaryPath _ q h
      | error e => rfl

theorem pvParStage_title (o : Oracles) (force dp : Bool) (batchSize : Nat)
    (parPath corrected videoDir : List Char) (fs : FS)
    (h : title_txt_in_dir fs videoDir = true) :
    title_txt_in_dir (pvParStage o force dp batchSize parPath corrected fs).1
      videoDir = true := by
  rw [pvParStage]
  by_cases h1 : dp = true
  · rw [if_pos h1]
    exact h
  · rw [if_neg h1]
    by_cases h2 : (!force && fsIsFile fs parPath) = true
    · rw [if_pos h2]
      exact h
    · rw [if_neg h2]
      exact title_txt_write_mono fs parPath _ videoDir h

theorem pvSumStage_title (o : Oracles) (force ds : Bool)
    (summaryPath corrected videoDir : List Char) (fs : FS)
    (h : title_txt_in_dir fs videoDir = true) :
    title_txt_in_dir (pvSumStage o force ds summaryPath corrected fs).1
      videoDir = true := by
  rw [pvSumStage]
  by_cases h1 : ds = true
  · rw [if_pos h1]
    exact h
  · rw [if_neg h1]
    by_cases h2 : (!force && fsIsFile fs summaryPath) = true
    · rw [if_pos h2]
      exact h
    · rw [if_neg h2]
      cases hs : o.summary corrected with
      | ok s => exact title_txt_write_mono fs summaryPath s videoDir h
      | error e => exact h

theorem pvLaterStages_read (o : Oracles) (force dp ds : Bool) (batchSize : Nat)
    (parPath summaryPath corrected : List Char) (correctCalls : Nat) (fs : FS)
    (q : List Char) (h1 : ¬ parPath = q) (h2 : ¬ summaryPath = q) :
    fsRead (pvLaterStages o force dp ds batchSize parPath summaryPath corrected
        correctCalls fs).1 q = fsRead fs q := by
  rw [pvLaterStages]
  show fsRead (pvSumStage o force ds summaryPath corrected
      (pvParStage o force dp batchSize parPath corrected fs).1).1 q = _
  rw [pvSumStage_read o force ds summaryPath corrected _ q h2,
    pvParStage_read o force dp batchSize parPath corrected fs q h1]

theorem pvLaterStages_title (o : Oracles) (force dp ds : Bool) (batchSize : Nat)
    (parPath summaryPath corrected videoDir : List Char) (correctCalls : Nat)
    (fs : FS) (h : title_txt_in_dir fs videoDir = true) :
    title_txt_in_dir (pvLaterStages o force dp ds batchSize parPath summaryPath
        corrected correctCalls fs).1 videoDir = true := by
  rw [pvLaterStages]
  exact pvSumStage_title o force ds summaryPath corrected videoDir _
    (pvParStage_title o force dp batchSize parPath corrected videoDir fs h)

theorem path_ne_title (videoDir name safe : List Char) (x : Char)
    (hx : name.head? = some x) (hxt : ¬ x = 't') :
    ¬ videoDir ++ '/' :: name
      = videoDir ++ '/' :: "title_".toList ++ safe ++ ".txt".toList := by
  intro h
  rw [show videoDir ++ '/' :: "title_".toList ++ safe ++ ".txt".toList
      = videoDir ++ '/' :: ("title_".toList ++ safe ++ ".txt".toList) from by
    simp [List.append_assoc]] at h
  have h2 := List.append_cancel_left h
  have h3 := (List.cons.inj h2).2
  rw [h3] at hx
  rw [show ("title_".toList ++ safe ++ ".txt".toList).head? = some 't' from rfl] at hx
  exact hxt (Option.some.inj hx.symm)

/-- C1: with `force = false`, a fetchable transcript longer than
`chunk_size ≥ 1`, a correction service that answers every call, and no
cached artifacts, the first `process_video` run completes and writes the
chunked corrector's aggregate transcript to `corrected_transcript.md`; the
immediately following second run performs zero text-generation interactions
in the Fetch and Correct stages (Fetch never touches the text-generation
service, and Correct is skipped exactly because both
`corrected_transcript.md` and a `title_*.txt` file now exist), and the
`corrected_transcript.md` content it reads equals the content the first run
wrote. -/
theorem process_video_second_run_cached (o : Oracles) (url baseDir : List Char)
    (chunkSize : Nat) (dp ds : Bool) (batchSize : Nat) (fs0 : FS)
    (vid videoDir pathO pathC : List Char)
    (hvid : extract_video_id url = some vid)
    (hvd : videoDir = baseDir ++ '/' :: vid)
    (hpO : pathO = videoDir ++ '/' :: "original_transcript.md".toList)
    (hpC : pathC = videoDir ++ '/' :: "corrected_transcript.md".toList)
    (_hchunk : 1 ≤ chunkSize) (_hlen : chunkSize < o.fetched.length)
    (hfetch : List.isPrefixOf "Error:".toList o.fetched = false)
    (hco : ∀ s, ∃ r, o.correct s = .ok r)
    (horig : fsRead fs0 pathO = none)
    (hcorr : fsRead fs0 pathC = none) :
    ∃ (resp : TranscriptResponse) (calls : Nat),
      correct_transcript_chunked o.correct o.title o.fetched chunkSize
        = (.ok resp, calls)
      ∧ (process_video o url false baseDir chunkSize dp ds batchSize fs0).2.1
          = .done
      ∧ fsRead (process_video o url false baseDir chunkSize dp ds batchSize fs0).1
          pathC = some resp.transcript
      ∧ (process_video o url false baseDir chunkSize dp ds batchSize
          (process_video o url false baseDir chunkSize dp ds batchSize fs0).1).2.2.fetchTextGen
          = 0
      ∧ (process_video o url false baseDir chunkSize dp ds batchSize
          (process_video o url false baseDir chunkSize dp ds batchSize fs0).1).2.2.correctCalls
          = 0
      ∧ fsRead (process_video o url false baseDir chunkSize dp ds batchSize
          (process_video o url false baseDir chunkSize dp ds batchSize fs0).1).1
          pathC = some resp.transcript
      ∧ (process_video o url false baseDir chunkSize dp ds batchSize
          (process_video o url false baseDir chunkSize dp ds batchSize fs0).1).2.1
          = .done := by
  obtain ⟨resp, calls, hchunked⟩ :=
    correct_chunked_total o.correct o.title o.fetched chunkSize hco
  have nOC : ¬ pathO = pathC := by
    rw [hpO, hpC]
    exact append_cons_ne videoDir '/' _ _ (by decide)
  have nCO : ¬ pathC = pathO := fun h => nOC h.symm
  have nParC : ¬ videoDir ++ '/' :: "paragraph_summaries.md".toList = pathC := by
    rw [hpC]
    exact append_cons_ne videoDir '/' _ _ (by decide)
  have nSumC : ¬ videoDir ++ '/' :: "summary.md".toList = pathC := by
    rw [hpC]
    exact append_cons_ne videoDir '/' _ _ (by decide)
  have nParO : ¬ videoDir ++ '/' :: "paragraph_summaries.md".toList = pathO := by
    rw [hpO]
    exact append_cons_ne videoDir '/' _ _ (by decide)
  have nSumO : ¬ videoDir ++ '/' :: "summary.md".toList = pathO := by
    rw [hpO]
    exact append_cons_ne videoDir '/' _ _ (by decide)
  have nCT : ∀ safe, ¬ pathC
      = videoDir ++ '/' :: "title_".toList ++ safe ++ ".txt".toList := by
    intro safe
    rw [hpC]
    exact path_ne_title videoDir _ safe 'c' rfl (by decide)
  have nOT : ∀ safe, ¬ pathO
      = videoDir ++ '/' :: "title_".toList ++ safe ++ ".txt".toList := by
    intro safe
    rw [hpO]
    exact path_ne_title videoDir _ safe 'o' rfl (by decide)
  have c1 : fsIsFile (fsMkdir fs0 videoDir) pathO = false := by
    rw [fsIsFile, fsRead_mkdir, horig]
    rfl
  have c2 : fsIsFile (fsWrite (fsMkdir fs0 videoDir) pathO o.fetched) pathC
      = false := by
    rw [fsIsFile, fsRead_write_other _ _ _ _ nOC, fsRead_mkdir, hcorr]
    rfl
  have hrun1 : process_video o url false baseDir chunkSize dp ds batchSize fs0
      = pvLaterStages o false dp ds batchSize
          (videoDir ++ '/' :: "paragraph_summaries.md".toList)
          (videoDir ++ '/' :: "summary.md".toList)
          resp.transcript calls
          (fsWrite (fsWrite (fsWrite (fsMkdir fs0 videoDir) pathO o.fetched)
              pathC resp.transcript)
            (videoDir ++ '/' :: "title_".toList
              ++ resp.title.map (fun c => if c = ' ' then '_' else c)
              ++ ".txt".toList)
            resp.title) := by
    simp only [process_video, hvid]
    rw [← hvd, ← hpO, ← hpC]
    rw [c1]
    rw [if_neg (by simp)]
    rw [hfetch]
    rw [if_neg (by simp)]
    simp only []
    rw [c2]
    rw [if_neg (by simp)]
    rw [hchunked]
  have hreadC1 : fsRead
      (process_video o url false baseDir chunkSize dp ds batchSize fs0).1 pathC
      = some resp.transcript := by
    rw [hrun1]
    rw [pvLaterStages_read o false dp ds batchSize _ _ _ _ _ pathC nParC nSumC]
    rw [fsRead_write_other _ _ _ _ (fun h => nCT _ h.symm)]
    exact fsRead_write_self _ _ _
  have hreadO1 : fsRead
      (process_video o url false baseDir chunkSize dp ds batchSize fs0).1 pathO
      = some o.fetched := by
    rw [hrun1]
    rw [pvLaterStages_read o false dp ds batchSize _ _ _ _ _ pathO nParO nSumO]
    rw [fsRead_write_other _ _ _ _ (fun h => nOT _ h.symm)]
    rw [fsRead_write_other _ _ _ _ nCO]
    exact fsRead_write_self _ _ _
  have htitle1 : title_txt_in_dir
      (process_video o url false baseDir chunkSize dp ds batchSize fs0).1
      videoDir = true := by
    rw [hrun1]
    apply pvLaterStages_title
    exact title_txt_write_title _ videoDir _ resp.title
  obtain ⟨fs1, hfs1⟩ : ∃ fs1,
      (process_video o url false baseDir chunkSize dp ds batchSize fs0).1 = fs1 :=
    ⟨_, rfl⟩
  rw [hfs1] at hreadC1 hreadO1 htitle1
  have c1' : fsIsFile (fsMkdir fs1 videoDir) pathO = true := by
    rw [fsIsFile, fsRead_mkdir, hreadO1]
    rfl
  have c2' : fsIsFile (fsMkdir fs1 videoDir) pathC = true := by
    rw [fsIsFile, fsRead_mkdir, hreadC1]
    rfl
  have c3' : title_txt_in_dir (fsMkdir fs1 videoDir) videoDir = true := by
    rw [title_txt_mkdir]
    exact htitle1
  have hrun2 : process_video o url false baseDir chunkSize dp ds batchSize fs1
      = pvLaterStages o false dp ds batchSize
          (videoDir ++ '/' :: "paragraph_summaries.md".toList)
          (videoDir ++ '/' :: "summary.md".toList)
          ((fsRead (fsMkdir fs1 videoDir) pathC).getD []) 0
          (fsMkdir fs1 videoDir) := by
    simp only [process_video, hvid]
    rw [← hvd, ← hpO, ← hpC]
    rw [c1']
    rw [if_pos (by simp)]
    simp only []
    rw [c2', c3']
    rw [if_pos (by simp)]
  rw [hfs1]
  refine ⟨resp, calls, hchunked, ?_, hreadC1, ?_, ?_, ?_, ?_⟩
  · rw [hrun1]
    rfl
  · rw [hrun2]
    rfl
  · rw [hrun2]
    rfl
  · rw [hrun2]
    rw [pvLaterStages_read o false dp ds batchSize _ _ _ _ _ pathC nParC nSumC]
    rw [fsRead_mkdir, hreadC1]
  · rw [hrun2]
    rfl

/-- Witness for C1: a full concrete run of the pipeline on fetched text
`"para1\n\npara2\n\npara3"` with chunk size 7 starting from the empty
filesystem, then a second run that hits the cache. -/
theorem process_video_second_run_cached_witness :
    extract_video_id "https://www.youtube.com/watch?v=abcdefghijk".toList
      = some "abcdefghijk".toList
    ∧ ∃ (resp : TranscriptResponse) (calls : Nat),
        correct_transcript_chunked wOracles.correct wOracles.title
          wOracles.fetched 7 = (.ok resp, calls)
        ∧ (process_video wOracles
            "https://www.youtube.com/watch?v=abcdefghijk".toList false
            "data".toList 7 false false 3 ⟨[], []⟩).2.1 = .done
        ∧ fsRead (process_video wOracles
            "https://www.youtube.com/watch?v=abcdefghijk".toList false
            "data".toList 7 false false 3 ⟨[], []⟩).1
            "data/abcdefghijk/corrected_transcript.md".toList
          = some resp.transcript
        ∧ (process_video wOracles
            "https://www.youtube.com/watch?v=abcdefghijk".toList false
            "data".toList 7 false false 3
            (process_video wOracles
              "https://www.youtube.com/watch?v=abcdefghijk".toList false
              "data".toList 7 false false 3 ⟨[], []⟩).1).2.2.fetchTextGen = 0
        ∧ (process_video wOracles
            "https://www.youtube.com/watch?v=abcdefghijk".toList false
            "data".toList 7 false false 3
            (process_video wOracles
              "https://www.youtube.com/watch?v=abcdefghijk".toList false
              "data".toList 7 false false 3 ⟨[], []⟩).1).2.2.correctCalls = 0
        ∧ fsRead (process_video wOracles
            "https://www.youtube.com/watch?v=abcdefghijk".toList false
            "data".toList 7 false false 3
            (process_video wOracles
              "https://www.youtube.com/watch?v=abcdefghijk".toList false
              "data".toList 7 false false 3 ⟨[], []⟩).1).1
            "data/abcdefghijk/corrected_transcript.md".toList
          = some resp.transcript
        ∧ (process_video wOracles
            "https://www.youtube.com/watch?v=abcdefghijk".toList false
            "data".toList 7 false false 3
            (process_video wOracles
              "https://www.youtube.com/watch?v=abcdefghijk".toList false
              "data".toList 7 false false 3 ⟨[], []⟩).1).2.1 = .done :=
  ⟨by decide,
   process_video_second_run_cached wOracles
     "https://www.youtube.com/watch?v=abcdefghijk".toList "data".toList
     7 false false 3 ⟨[], []⟩
     "abcdefghijk".toList "data/abcdefghijk".toList
     "data/abcdefghijk/original_transcript.md".toList
     "data/abcdefghijk/corrected_transcript.md".toList
     (by decide) (by decide) (by decide) (by decide) (by decide) (by decide)
     (by decide)
     (fun s => ⟨⟨"T w".toList, "ok:".toList ++ s⟩, rfl⟩) rfl rfl⟩

end YT
